import Mathlib

/-!
# docker-healthcheck: the port matcher of `src/code/main.cpp`

A shallow embedding of `normalizeLine`, `hexToInt`, `ipToHex` (IPv4 build),
`isPortOpen` and `main`, followed by theorems about them.

Modelling conventions

* A `std::string` is a `List Char`. Every character the code tests for is
  ASCII and the "C" locale leaves all bytes above 127 alone, so nothing depends
  on how text beyond ASCII is cut into `char`s.
* The text file behind `NET_STAT_FILE_PATH` is the list of lines that
  successive `std::getline` calls deliver, or `none` when the file cannot be
  opened.
* `unsigned int` is a `Nat` below `2 ^ 32`; wrap-around is written `% 2 ^ 32`.
* The C and C++ library calls the source relies on are modelled after the GNU
  implementation in the "C" locale (the program never calls `setlocale`):
  `::toupper`, `operator>>` under `std::hex` for `unsigned int`,
  `inet_pton(AF_INET, ...)`, `operator<<` under
  `std::hex << std::uppercase << std::setfill('0') << std::setw(8)`,
  `std::stoi`, `std::to_string` and `fs::path::filename`.
* The host is little-endian, as on the x86-64 and AArch64 Linux targets whose
  `/proc/net/tcp` the program reads.
* Behaviour the C++ standard leaves undefined is an explicit `Fault`.
* What the program writes and which files it opens is a list of `Event`s; the
  functions ending in `Run` return it next to the result.
-/

namespace Healthcheck

set_option autoImplicit false

/-! ## Constants of the source -/

/-- The `FIELD_SL` index. -/
def FIELD_SL : Nat := 0
/-- The `FIELD_LOCAL_IP` index. -/
def FIELD_LOCAL_IP : Nat := 1
/-- The `FIELD_LOCAL_PORT` index. -/
def FIELD_LOCAL_PORT : Nat := 2
/-- The `FIELD_STATE` index. -/
def FIELD_STATE : Nat := 5
/-- The `STATE_LISTENING` code, `0x0A`. -/
def STATE_LISTENING : Nat := 0x0A
/-- Largest value of `unsigned int`. -/
def UINT_MAX : Nat := 4294967295

/-- Undefined behaviour the source can run into. -/
inductive Fault where
  /-- `std::vector::operator[]` with an index at or beyond `size()`. -/
  | outOfRange
  /-- A read of an `unsigned int` that was never written. -/
  | indeterminate
deriving DecidableEq, Repr

/-! ## Character classes of the "C" locale -/

/-- The function `::toupper`: `a`..`z` move to `A`..`Z`, all else is kept. -/
def toupper (c : Char) : Char :=
  if 97 ≤ c.toNat ∧ c.toNat ≤ 122 then Char.ofNat (c.toNat - 32) else c

/-- The predicate `islower`: the letters `a`..`z`. -/
def islower (c : Char) : Bool :=
  decide (97 ≤ c.toNat ∧ c.toNat ≤ 122)

/-- The predicate `isspace`: space, `\t`, `\n`, `\v`, `\f`, `\r`. -/
def isspace (c : Char) : Bool :=
  c.toNat = 32 || (9 ≤ c.toNat && c.toNat ≤ 13)

/-! ## `normalizeLine` -/

/-- Default value of the `delimiters` parameter of `normalizeLine`: `" \t:"`. -/
def defaultDelimiters : List Char := [' ', '\t', ':']

/-- The `for (char c : line)` loop of `normalizeLine`, carrying `fields` and
`currentField`. The test `delimiters.find(c) != npos` is `delimiters.contains c`. -/
def normalizeLoop (delimiters : List Char) :
    List Char → List (List Char) → List Char → List (List Char) × List Char
  | [], fields, currentField => (fields, currentField)
  | c :: rest, fields, currentField =>
    if delimiters.contains c then
      if currentField ≠ [] then
        normalizeLoop delimiters rest (fields ++ [currentField]) []
      else
        normalizeLoop delimiters rest fields currentField
    else
      normalizeLoop delimiters rest fields (currentField ++ [c])

/-- The function `normalizeLine`: run the loop, then `std::transform` the
field still open with `::toupper` and push it when it is not empty. -/
def normalizeLine (line : List Char) (delimiters : List Char) : List (List Char) :=
  let st := normalizeLoop delimiters line [] []
  let currentField := st.2.map toupper
  if currentField ≠ [] then st.1 ++ [currentField] else st.1

/-! ## `hexToInt` -/

/-- Value of a hexadecimal digit as `num_get` reads it: `0`..`9`, `a`..`f`,
`A`..`F`. -/
def hexDigitValue (c : Char) : Option Nat :=
  if 48 ≤ c.toNat ∧ c.toNat ≤ 57 then some (c.toNat - 48)
  else if 97 ≤ c.toNat ∧ c.toNat ≤ 102 then some (10 + (c.toNat - 97))
  else if 65 ≤ c.toNat ∧ c.toNat ≤ 70 then some (10 + (c.toNat - 65))
  else none

/-- The digit loop of `num_get` for base 16 and `unsigned int`: it carries the
accumulated value, the overflow flag and the number of digits accepted, and
stops at the first character that is no hexadecimal digit. -/
def extractDigits : List Char → Nat → Bool → Nat → Nat × Bool × Nat
  | [], result, overflow, count => (result, overflow, count)
  | c :: rest, result, overflow, count =>
    match hexDigitValue c with
    | none => (result, overflow, count)
    | some d =>
      if result > UINT_MAX / 16 then
        extractDigits rest result true count
      else
        extractDigits rest ((result * 16 + d) % 2 ^ 32)
          (overflow || decide (result * 16 > UINT_MAX - d)) (count + 1)

/-- The optional sign of the input field: whether it is `-`, and the rest. -/
def extractSign (s : List Char) : Bool × List Char :=
  match s with
  | [] => (false, [])
  | c :: rest =>
    if c = '-' then (true, rest)
    else if c = '+' then (false, rest)
    else (false, c :: rest)

/-- The leading-zero scan of `num_get` for base 16: one `0` is taken, and an
`x` or `X` right after it completes the prefix `0x`. The flag tells whether a
zero was taken that is not part of a prefix. -/
def extractZeroX (s : List Char) : Bool × List Char :=
  match s with
  | [] => (false, [])
  | c :: rest =>
    if c = '0' then
      match rest with
      | [] => (true, [])
      | x :: rest2 =>
        if x = 'x' ∨ x = 'X' then (false, rest2) else (true, x :: rest2)
    else (false, c :: rest)

/-- The function `hexToInt`: `ss << std::hex << hexStr; ss >> value; return value`.
The extraction skips white space; at the end of the text it leaves `value`
unwritten, and the `return` reads an indeterminate value. Otherwise it stores
`0` when no digit was found, `UINT_MAX` on overflow, and the value read
(negated modulo `2 ^ 32` after a `-`) in all other cases. The stream state is
not looked at. -/
def hexToInt (hexStr : List Char) : Except Fault Nat :=
  match hexStr.dropWhile isspace with
  | [] => .error .indeterminate
  | c :: rest =>
    let sg := extractSign (c :: rest)
    let pf := extractZeroX sg.2
    let dg := extractDigits pf.2 0 false 0
    if dg.2.2 = 0 ∧ pf.1 = false then .ok 0
    else if dg.2.1 then .ok UINT_MAX
    else if sg.1 then .ok ((2 ^ 32 - dg.1) % 2 ^ 32)
    else .ok dg.1

/-! ## `ipToHex` (IPv4 build) -/

/-- The C string behind `ip.c_str()`: the characters before the first NUL. -/
def c_str (s : List Char) : List Char :=
  s.takeWhile (fun c => c.toNat ≠ 0)

/-- The scanning loop of `inet_pton(AF_INET, ...)`: `done` holds the octets
already closed by a dot, `tp` the octet being read, `sawDigit` whether it has
a digit yet, `octets` how many octets were started. -/
def inetPton4Loop : List Char → List Nat → Nat → Bool → Nat → Option (List Nat)
  | [], done, tp, _, octets => if octets < 4 then none else some (done ++ [tp])
  | ch :: src, done, tp, sawDigit, octets =>
    if 48 ≤ ch.toNat ∧ ch.toNat ≤ 57 then
      if sawDigit = true ∧ tp = 0 then none
      else if tp * 10 + (ch.toNat - 48) > 255 then none
      else if sawDigit = false then
        if octets + 1 > 4 then none
        else inetPton4Loop src done (tp * 10 + (ch.toNat - 48)) true (octets + 1)
      else inetPton4Loop src done (tp * 10 + (ch.toNat - 48)) sawDigit octets
    else if ch = '.' ∧ sawDigit = true then
      if octets = 4 then none
      else inetPton4Loop src (done ++ [tp]) 0 false octets
    else none

/-- The call `inet_pton(AF_INET, src, &addr)`: the four address bytes in
network order when it returns 1, `none` otherwise. -/
def inet_pton4 (src : List Char) : Option (List Nat) :=
  inetPton4Loop src [] 0 false 0

/-- The field `addr.s_addr` read as a `uint32_t` on a little-endian host: the
first address byte is the least significant one. -/
def s_addr (bytes : List Nat) : Nat :=
  bytes.foldr (fun b acc => b + 256 * acc) 0

/-- An uppercase hexadecimal digit. -/
def hexDigitUpper (d : Nat) : Char :=
  if d < 10 then Char.ofNat (48 + d) else Char.ofNat (55 + d)

/-- Uppercase hexadecimal digits of `v`, most significant first, at most
`fuel` of them, in front of `acc`. -/
def hexDigitsUpper : Nat → Nat → List Char → List Char
  | 0, _, acc => acc
  | fuel + 1, v, acc =>
    if v / 16 = 0 then hexDigitUpper (v % 16) :: acc
    else hexDigitsUpper fuel (v / 16) (hexDigitUpper (v % 16) :: acc)

/-- Output of a `uint32_t` under `std::hex << std::uppercase <<
std::setfill('0') << std::setw(8)`: the digits, padded on the left to 8. -/
def formatHex8 (v : Nat) : List Char :=
  let digits := hexDigitsUpper 8 (v % 2 ^ 32) []
  List.replicate (8 - digits.length) '0' ++ digits

/-- The function `ipToHex` of the IPv4 build. -/
def ipToHex (ip : List Char) : List Char :=
  if ip = [] then []
  else
    match inet_pton4 (c_str ip) with
    | none => []
    | some bytes => formatHex8 (s_addr bytes)

/-! ## `isPortOpen` -/

/-- The access `fields[i]`; beyond the size it is undefined behaviour. -/
def fieldAt (fields : List (List Char)) (i : Nat) : Except Fault (List Char) :=
  match fields.get? i with
  | some f => .ok f
  | none => .error .outOfRange

/-- One pass through the body of the `while (std::getline(file, line))` loop
of `isPortOpen`: `ok true` is `return true`, `ok false` goes on to the next
line. -/
def checkLine (targetPort : Nat) (targetIpHex : List Char) (line : List Char) :
    Except Fault Bool :=
  let fields := normalizeLine line defaultDelimiters
  if fields.length ≤ FIELD_STATE then .ok false
  else
    match fieldAt fields FIELD_SL with
    | .error e => .error e
    | .ok _ =>
    match fieldAt fields FIELD_LOCAL_IP with
    | .error e => .error e
    | .ok localAddrHex =>
    match fieldAt fields FIELD_LOCAL_PORT with
    | .error e => .error e
    | .ok localPortHex =>
    match fieldAt fields FIELD_STATE with
    | .error e => .error e
    | .ok state =>
    match hexToInt state with
    | .error e => .error e
    | .ok st =>
      if st = STATE_LISTENING then
        match hexToInt localPortHex with
        | .error e => .error e
        | .ok port =>
          if port = targetPort then
            if targetIpHex = [] then .ok true
            else if targetIpHex = localAddrHex then .ok true
            else .ok false
          else .ok false
      else .ok false

/-- The `while` loop of `isPortOpen` over the lines that follow the header. -/
def scanLines (targetPort : Nat) (targetIpHex : List Char) :
    List (List Char) → Except Fault Bool
  | [] => .ok false
  | line :: rest =>
    match checkLine targetPort targetIpHex line with
    | .error e => .error e
    | .ok true => .ok true
    | .ok false => scanLines targetPort targetIpHex rest

/-- The function `isPortOpen`. `file` is `none` when the table cannot be
opened, and otherwise the lines of the table; the first `std::getline` drops
the header. -/
def isPortOpen (file : Option (List (List Char))) (targetPort : Nat)
    (targetIp : List Char) : Except Fault Bool :=
  match file with
  | none => .ok false
  | some lines =>
    if targetIp ≠ [] ∧ ipToHex targetIp = [] then .ok false
    else
      scanLines targetPort (if targetIp ≠ [] then ipToHex targetIp else [])
        (lines.drop 1)

/-! ## Logging -/

/-- The exit code `SUCCESS`. -/
def SUCCESS : Nat := 0
/-- The exit code `NOT_FOUND`. -/
def NOT_FOUND : Nat := 1
/-- The exit code `BAD_INPUT`. -/
def BAD_INPUT : Nat := 2
/-- The default of `NET_STAT_FILE_PATH`. -/
def NET_STAT_FILE_PATH : List Char := "/proc/net/tcp".toList

/-- The process-wide flags `logDebugEnabled` and `logQuietEnabled`. -/
structure LogFlags where
  /-- The flag `logDebugEnabled`. -/
  logDebugEnabled : Bool
  /-- The flag `logQuietEnabled`. -/
  logQuietEnabled : Bool
deriving DecidableEq, Repr

/-- The two output streams. -/
inductive OutStream where
  /-- The stream `std::cout`. -/
  | stdout
  /-- The stream `std::cerr`. -/
  | stderr
deriving DecidableEq, Repr

/-- What the program does to the outside. -/
inductive Event where
  /-- One line written to a stream, the closing `std::endl` left out. -/
  | write (stream : OutStream) (text : List Char)
  /-- Construction of an `std::ifstream` on `NET_STAT_FILE_PATH`. -/
  | openTable
deriving DecidableEq, Repr

/-- The function `info`. -/
def info (log : LogFlags) (message : List Char) : List Event :=
  if log.logQuietEnabled = false then [Event.write OutStream.stdout message] else []

/-- The function `error`. -/
def error (log : LogFlags) (message : List Char) : List Event :=
  if log.logQuietEnabled = false then
    [Event.write OutStream.stderr ("[ERROR] ".toList ++ message)]
  else []

/-- The function `debug`. -/
def debug (log : LogFlags) (message : List Char) : List Event :=
  if log.logDebugEnabled = true then
    [Event.write OutStream.stdout ("[DEBUG] ".toList ++ message)]
  else []

/-! ## `isPortOpen` with its effects -/

/-- The loop body of `isPortOpen` as in `checkLine`, with the lines it logs. -/
def checkLineRun (log : LogFlags) (targetPort : Nat) (targetIpHex : List Char)
    (line : List Char) : List Event × Except Fault Bool :=
  let fields := normalizeLine line defaultDelimiters
  if fields.length ≤ FIELD_STATE then ([], .ok false)
  else
    match fieldAt fields FIELD_SL with
    | .error e => ([], .error e)
    | .ok sl =>
    match fieldAt fields FIELD_LOCAL_IP with
    | .error e => ([], .error e)
    | .ok localAddrHex =>
    match fieldAt fields FIELD_LOCAL_PORT with
    | .error e => ([], .error e)
    | .ok localPortHex =>
    match fieldAt fields FIELD_STATE with
    | .error e => ([], .error e)
    | .ok state =>
    let shown := debug log ("=== SL ".toList ++ sl ++ " ===".toList)
      ++ debug log ("  Local address (hex): ".toList ++ localAddrHex)
      ++ debug log ("  Local port (hex): ".toList ++ localPortHex)
      ++ debug log ("  State: ".toList ++ state)
    match hexToInt state with
    | .error e => (shown, .error e)
    | .ok st =>
      if st = STATE_LISTENING then
        match hexToInt localPortHex with
        | .error e => (shown, .error e)
        | .ok port =>
          if port = targetPort then
            if targetIpHex = [] then
              (shown ++ debug log "  Port matches target port!".toList
                ++ debug log "  No specific IP requested - port found!".toList, .ok true)
            else if targetIpHex = localAddrHex then
              (shown ++ debug log "  Port matches target port!".toList
                ++ debug log "  IP matches target address!".toList, .ok true)
            else (shown ++ debug log "  Port matches target port!".toList, .ok false)
          else (shown ++ debug log "  Port does not match target".toList, .ok false)
      else (shown ++ debug log "  Not in LISTENING state".toList, .ok false)

/-- The `while` loop of `isPortOpen` with the lines it logs. -/
def scanLinesRun (log : LogFlags) (targetPort : Nat) (targetIpHex : List Char) :
    List (List Char) → List Event × Except Fault Bool
  | [] => ([], .ok false)
  | line :: rest =>
    match checkLineRun log targetPort targetIpHex line with
    | (out, .error e) => (out, .error e)
    | (out, .ok true) => (out, .ok true)
    | (out, .ok false) =>
      (out ++ (scanLinesRun log targetPort targetIpHex rest).1,
        (scanLinesRun log targetPort targetIpHex rest).2)

/-- The function `isPortOpen` with its effects: the opening of the table and
the lines logged. -/
def isPortOpenRun (log : LogFlags) (file : Option (List (List Char))) (targetPort : Nat)
    (targetIp : List Char) : List Event × Except Fault Bool :=
  match file with
  | none =>
    (Event.openTable :: error log ("Cannot open ".toList ++ NET_STAT_FILE_PATH), .ok false)
  | some lines =>
    if targetIp ≠ [] ∧ ipToHex targetIp = [] then
      (Event.openTable :: error log "Invalid IP address format".toList, .ok false)
    else
      let targetIpHex := if targetIp ≠ [] then ipToHex targetIp else []
      let shown := if targetIp ≠ [] then debug log ("Target IP hex: ".toList ++ targetIpHex)
        else []
      (Event.openTable :: (shown ++ (scanLinesRun log targetPort targetIpHex (lines.drop 1)).1),
        (scanLinesRun log targetPort targetIpHex (lines.drop 1)).2)

/-! ## `main` -/

/-- The predicate `isdigit`. -/
def isdigit (c : Char) : Bool :=
  decide (48 ≤ c.toNat ∧ c.toNat ≤ 57)

/-- Smallest value of `int`. -/
def INT_MIN : Int := -2147483648
/-- Largest value of `int`. -/
def INT_MAX : Int := 2147483647

/-- The call `std::stoi(str)`: white space is skipped, an optional sign and
the decimal digits that follow are read, and the rest of the text is ignored.
The result is `none` when the call throws: `std::invalid_argument` without a
digit, `std::out_of_range` for a number outside `int`. -/
def stoi (str : List Char) : Option Int :=
  let sg := extractSign (str.dropWhile isspace)
  let digits := sg.2.takeWhile isdigit
  if digits = [] then none
  else
    let n : Int :=
      if sg.1 = true then -((digits.foldl (fun acc c => 10 * acc + (c.toNat - 48)) 0 : Nat) : Int)
      else ((digits.foldl (fun acc c => 10 * acc + (c.toNat - 48)) 0 : Nat) : Int)
    if n < INT_MIN ∨ INT_MAX < n then none else some n

/-- Conversion of an `int` to `unsigned int`. -/
def toUnsigned (n : Int) : Nat := (n % 4294967296).toNat

/-- The call `std::to_string` on an `unsigned int`. -/
def to_string (n : Nat) : List Char := Nat.toDigits 10 n

/-- The call `fs::path(p).filename()`: what follows the last `/`. -/
def filename (p : List Char) : List Char :=
  (p.reverse.takeWhile (fun c => c ≠ '/')).reverse

/-- The flag `--debug`. -/
def debugFlag : List Char := "--debug".toList
/-- The flag `--quiet`. -/
def quietFlag : List Char := "--quiet".toList

/-- The usage text of the IPv4 build, line by line. -/
def usageLines (fileName : List Char) : List (List Char) :=
  ["Usage: ".toList ++ fileName ++ " <port_number> [<ip_address>] [--debug] [--quiet]".toList,
    "Examples:".toList,
    "  ".toList ++ fileName ++ " 8080".toList,
    "  ".toList ++ fileName ++ " 80 0.0.0.0".toList,
    "  ".toList ++ fileName ++ " 8080 127.0.0.1 --debug".toList,
    "  ".toList ++ fileName ++ " 8080 127.0.0.1 --quiet".toList]

/-- The loop `for (int j = i; j < argc - 1; j++) argv[j] = argv[j + 1]`, with
the number of passes left. -/
def shiftArgs : Nat → List (List Char) → Nat → List (List Char)
  | 0, argv, _ => argv
  | count + 1, argv, j => shiftArgs count (argv.set j (argv.getD (j + 1) [])) (j + 1)

/-- The loop `for (int i = 1; i < argc; i++)` of `main` that takes the flags
out of `argv`. A pass either moves `i` on or lowers `argc`, so `argc` passes
suffice; the first argument bounds the number of passes. -/
def stripFlags : Nat → List (List Char) → Nat → Nat → LogFlags →
    List (List Char) × Nat × LogFlags
  | 0, argv, argc, _, log => (argv, argc, log)
  | passes + 1, argv, argc, i, log =>
    if i < argc then
      if argv.getD i [] = debugFlag then
        stripFlags passes (shiftArgs (argc - 1 - i) argv i) (argc - 1) i
          (LogFlags.mk true log.logQuietEnabled)
      else if argv.getD i [] = quietFlag then
        stripFlags passes (shiftArgs (argc - 1 - i) argv i) (argc - 1) i
          (LogFlags.mk log.logDebugEnabled true)
      else stripFlags passes argv argc (i + 1) log
    else (argv, argc, log)

/-- The block `if (logDebugEnabled) { ... }` of `main` that echoes the table. -/
def dumpTable (log : LogFlags) (file : Option (List (List Char))) : List Event :=
  if log.logDebugEnabled = true then
    match file with
    | some lines =>
      Event.openTable ::
        (debug log ("=== Contents of ".toList ++ NET_STAT_FILE_PATH ++ " ===".toList)
          ++ (lines.map (debug log)).flatten
          ++ debug log "=== End of file contents ===".toList)
    | none => Event.openTable :: debug log ("Failed to open ".toList ++ NET_STAT_FILE_PATH)
  else []

/-- The part ` on IP <address>` of the messages of `main`. -/
def onAddress (before targetIp : List Char) : List Char :=
  if targetIp = [] then [] else before ++ targetIp

/-- What `main` reads off `argv` once the flags are out: the text `argv[1]`,
the value of `targetIp` (`argv[2]` when `argc >= 3`, else empty), and the flags. -/
def parseArguments (argv0 : List Char) (args : List (List Char)) :
    List Char × List Char × LogFlags :=
  let argv := argv0 :: args
  let st := stripFlags argv.length argv argv.length 1 (LogFlags.mk false false)
  (st.1.getD 1 [], if st.2.1 ≥ 3 then st.1.getD 2 [] else [], st.2.2)

/-- The function `main`: `argv0` is `argv[0]`, `args` are the arguments after
it, `file` is the table. The result is what the program does to the outside,
and its exit code. -/
def main (argv0 : List Char) (args : List (List Char)) (file : Option (List (List Char))) :
    List Event × Except Fault Nat :=
  let argc := (argv0 :: args).length
  if argc < 2 ∨ argc > 5 then
    (((usageLines (filename argv0)).map (info (LogFlags.mk false false))).flatten, .ok BAD_INPUT)
  else
    let parsed := parseArguments argv0 args
    let log := parsed.2.2
    let dump := dumpTable log file
    match stoi parsed.1 with
    | none => (dump ++ error log "Invalid port number - stoi".toList, .ok NOT_FOUND)
    | some n =>
      let targetPort := toUnsigned n
      let targetIp := parsed.2.1
      let start := debug log ("Starting search for port ".toList ++ to_string targetPort
        ++ onAddress " on IP ".toList targetIp)
      let run := isPortOpenRun log file targetPort targetIp
      match run.2 with
      | .error e => (dump ++ start ++ run.1, .error e)
      | .ok true =>
        (dump ++ start ++ run.1 ++ info log ("Port ".toList ++ to_string targetPort
          ++ " is open and listening".toList ++ onAddress " on ".toList targetIp), .ok SUCCESS)
      | .ok false =>
        (dump ++ start ++ run.1 ++ info log ("Port ".toList ++ to_string targetPort
          ++ " is not open or not listening".toList ++ onAddress " on ".toList targetIp),
          .ok NOT_FOUND)

/-! ## Notions the statements use -/

/-- A line put together from tokens: each token is followed by its run of
separator characters. -/
def joinSegments : List (List Char × List Char) → List Char
  | [] => []
  | p :: rest => p.1 ++ p.2 ++ joinSegments rest

/-- The longest suffix of `line` without a delimiter character. -/
def delimiterFreeSuffix (line delimiters : List Char) : List Char :=
  line.rtakeWhile (fun c => !delimiters.contains c)

/-- The characters that are hexadecimal digits. -/
def hexDigitChars : List Char := "0123456789abcdefABCDEF".toList

/-- A hex-digit string: not empty, hexadecimal digits only. -/
def IsHexString (s : List Char) : Prop :=
  s ≠ [] ∧ ∀ c ∈ s, c ∈ hexDigitChars

instance (s : List Char) : Decidable (IsHexString s) := by
  unfold IsHexString; infer_instance

/-- The number a hexadecimal digit denotes: its place among `0123456789abcdef`,
or among `0123456789ABCDEF`. -/
def hexNumeral (c : Char) : Nat :=
  if "0123456789abcdef".toList.indexOf c < 16 then "0123456789abcdef".toList.indexOf c
  else "0123456789ABCDEF".toList.indexOf c

/-- The number a string of hexadecimal digits denotes in base 16. -/
def hexValue (s : List Char) : Nat :=
  s.foldl (fun acc c => 16 * acc + hexNumeral c) 0

/-- The decimal numeral of `n`, without leading zeros. -/
def decimal (n : Nat) : List Char := Nat.toDigits 10 n

/-- The dotted-quad text `a.b.c.d`. -/
def dottedQuad (a b c d : Nat) : List Char :=
  decimal a ++ '.' :: (decimal b ++ '.' :: (decimal c ++ '.' :: decimal d))

/-- An IPv4 literal: four decimal numbers from 0 to 255, separated by dots. -/
def IsIPv4Literal (s : List Char) : Prop :=
  ∃ a b c d, a ≤ 255 ∧ b ≤ 255 ∧ c ≤ 255 ∧ d ≤ 255 ∧ s = dottedQuad a b c d

/-- Token `i` of a table row, empty when the row has no such token. -/
def field (line : List Char) (i : Nat) : List Char :=
  (normalizeLine line defaultDelimiters).getD i []

/-- A well-formed row: at least 6 tokens, and the local-port and state tokens
are hex-digit strings. -/
def WellFormedRow (line : List Char) : Prop :=
  6 ≤ (normalizeLine line defaultDelimiters).length ∧
    IsHexString (field line FIELD_LOCAL_PORT) ∧ IsHexString (field line FIELD_STATE)

/-- The row is in the listening state on port `P`: its state token denotes
`0x0A` and its local-port token denotes `P`. -/
def ListeningOn (P : Nat) (line : List Char) : Prop :=
  hexValue (field line FIELD_STATE) = 0x0A ∧ hexValue (field line FIELD_LOCAL_PORT) = P

instance (line : List Char) : Decidable (WellFormedRow line) := by
  unfold WellFormedRow; infer_instance

instance (P : Nat) (line : List Char) : Decidable (ListeningOn P line) := by
  unfold ListeningOn; infer_instance

/-- The header line of `/proc/net/tcp`. -/
def sampleHeader : List Char :=
  "  sl  local_address rem_address   st tx_queue rx_queue tr tm->when retrnsmt   uid  timeout inode".toList

/-- The row `1: 0100007F:1F90 00000000:0000 0A`. -/
def sampleRow : List Char := "1: 0100007F:1F90 00000000:0000 0A".toList

/-- A row of five tokens: the state column is missing. -/
def shortRow : List Char := "2: 0100007F:1F90 00000000:0000".toList

/-- The same row with the local address in lowercase. -/
def lowercaseRow : List Char := "1: 0100007f:1F90 00000000:0000 0A".toList

/-- The arguments that are no flag, in order. -/
def positionals (args : List (List Char)) : List (List Char) :=
  args.filter (fun a => !(decide (a = debugFlag) || decide (a = quietFlag)))

/-- The lines written, in order, each with its stream. -/
def written : List Event → List (OutStream × List Char)
  | [] => []
  | Event.write stream text :: rest => (stream, text) :: written rest
  | Event.openTable :: rest => written rest

/-- The uppercase hexadecimal digits in order. -/
def upperHexDigits : List Char := "0123456789ABCDEF".toList

/-- The two-digit uppercase hexadecimal numeral of a byte. -/
def hexByte (n : Nat) : List Char :=
  [upperHexDigits.getD (n / 16) '0', upperHexDigits.getD (n % 16) '0']

/-- A token without any hexadecimal digit. -/
def NoHexDigit (t : List Char) : Prop := ∀ c ∈ t, c ∉ hexDigitChars

/-- A token that is not made of white space only. -/
def NotBlank (t : List Char) : Prop := ∃ c ∈ t, isspace c = false

/-- What is left of a token after leading white space and one optional sign. -/
def afterSign (t : List Char) : List Char :=
  match t.dropWhile isspace with
  | [] => []
  | c :: rest => if c = '-' ∨ c = '+' then rest else c :: rest

/-- What is left of a text after the prefix `0x` or `0X`, when it has one. -/
def afterZeroX (s : List Char) : List Char :=
  match s with
  | c :: x :: rest => if c = '0' ∧ (x = 'x' ∨ x = 'X') then rest else s
  | _ => s

/-- The hexadecimal digits a token shows after its leading white space, one
optional sign and an optional prefix `0x`: the longest run of them. Whatever
follows the run is not looked at. -/
def leadingHexDigits (t : List Char) : List Char :=
  (afterZeroX (afterSign t)).takeWhile (fun c => decide (c ∈ hexDigitChars))

/-- A token without a number: it is not blank, and no hexadecimal digit follows
its leading white space, optional sign and optional prefix `0x`. Examples are
`ZZ`, `G1`, `Z0A`, `tx_queue`, `-` and `0x`; `0AZ` is none, it shows `0A`. -/
def NoNumber (t : List Char) : Prop := NotBlank t ∧ leadingHexDigits t = []

/-- A token whose number does not fit 32 bits, such as `FFFFFFFFF`. -/
def TooLarge (t : List Char) : Prop := UINT_MAX < hexValue (leadingHexDigits t)

/-- An undecodable token: it holds no number, or a number that does not fit 32
bits. These are the tokens that are not blank and on which the extraction of an
`unsigned int` under `std::hex` fails. -/
def Undecodable (t : List Char) : Prop := NoNumber t ∨ TooLarge t

/-- A row whose state token is undecodable. -/
def UndecodableState (line : List Char) : Prop :=
  Undecodable (field line FIELD_STATE)

/-- A row whose local-port token is undecodable, seen from the target port `P`:
the token holds no number and `P` is not 0, or its number does not fit 32 bits
and `P` is not `UINT_MAX`. The state token is not blank. -/
def UndecodablePortFor (P : Nat) (line : List Char) : Prop :=
  NotBlank (field line FIELD_STATE) ∧
    ((NoNumber (field line FIELD_LOCAL_PORT) ∧ P ≠ 0) ∨
      (TooLarge (field line FIELD_LOCAL_PORT) ∧ P ≠ UINT_MAX))

instance (t : List Char) : Decidable (NoHexDigit t) := by
  unfold NoHexDigit; infer_instance

instance (t : List Char) : Decidable (NotBlank t) := by
  unfold NotBlank; infer_instance

instance (t : List Char) : Decidable (NoNumber t) := by
  unfold NoNumber; infer_instance

instance (t : List Char) : Decidable (TooLarge t) := by
  unfold TooLarge; infer_instance

instance (t : List Char) : Decidable (Undecodable t) := by
  unfold Undecodable; infer_instance

instance (line : List Char) : Decidable (UndecodableState line) := by
  unfold UndecodableState; infer_instance

instance (P : Nat) (line : List Char) : Decidable (UndecodablePortFor P line) := by
  unfold UndecodablePortFor; infer_instance

/-- A row with the local-port token `ZZ`. -/
def badPortRow : List Char := "1: 0100007F:ZZ 00000000:0000 0A".toList

/-- A row with the local-port token `FFFFFFFFF`. -/
def hugePortRow : List Char := "2: 0100007F:FFFFFFFFF 00000000:0000 0A".toList

/-- Rows with an undecodable local-port or state token: `ZZ`, `G1`, `0x`, `-`
and `FFFFFFFFF` as the port, `Z0A`, `tx_queue` and `10000000A` as the state. -/
def junkRows : List (List Char) :=
  ["1: 0100007F:ZZ 00000000:0000 0A".toList,
   "2: 0100007F:G1 00000000:0000 0A".toList,
   "3: 0100007F:1F90 00000000:0000 Z0A".toList,
   "4: 0100007F:1F90 00000000:0000 tx_queue".toList,
   "5: 0100007F:0x 00000000:0000 0A".toList,
   "6: 0100007F:- 00000000:0000 0A".toList,
   "7: 0100007F:FFFFFFFFF 00000000:0000 0A".toList,
   "8: 0100007F:1F90 00000000:0000 10000000A".toList]

/-- A text that begins with a decimal integer: white space, an optional sign,
then at least one digit. -/
def LeadingInteger (p : List Char) : Prop :=
  ∃ ws sign digits rest, p = ws ++ (sign ++ (digits ++ rest)) ∧
    (∀ c ∈ ws, isspace c = true) ∧ (sign = [] ∨ sign = ['+'] ∨ sign = ['-']) ∧
    digits ≠ [] ∧ ∀ c ∈ digits, isdigit c = true

/-- An integer literal: an optional sign and at least one digit, nothing else. -/
def IsIntegerLiteral (s : List Char) : Prop :=
  ∃ sign digits, s = sign ++ digits ∧ (sign = [] ∨ sign = ['+'] ∨ sign = ['-']) ∧
    digits ≠ [] ∧ ∀ c ∈ digits, isdigit c = true

/-- The table of the scenarios: the header and the row
`1: 0100007F:1F90 00000000:0000 0A`. -/
def sampleTable : Option (List (List Char)) := some [sampleHeader, sampleRow]

/-! ## Auxiliary definitions for the proofs -/

/-- The digit branch of `inetPton4Loop` on the octet being read. -/
def digitStep (tp : Nat) (sawDigit : Bool) (octets : Nat) (ch : Char) :
    Option (Nat × Bool × Nat) :=
  if sawDigit = true ∧ tp = 0 then none
  else if tp * 10 + (ch.toNat - 48) > 255 then none
  else if sawDigit = false then
    if octets + 1 > 4 then none else some (tp * 10 + (ch.toNat - 48), true, octets + 1)
  else some (tp * 10 + (ch.toNat - 48), sawDigit, octets)

/-- The digit branch of `inetPton4Loop` along a run of digits. -/
def digitRun : List Char → Nat → Bool → Nat → Option (Nat × Bool × Nat)
  | [], tp, sawDigit, octets => some (tp, sawDigit, octets)
  | ch :: rest, tp, sawDigit, octets =>
    if 48 ≤ ch.toNat ∧ ch.toNat ≤ 57 then
      match digitStep tp sawDigit octets ch with
      | none => none
      | some st => digitRun rest st.1 st.2.1 st.2.2
    else none

/-- The text of the octets already closed by a dot. -/
def renderDone : List Nat → List Char
  | [] => []
  | o :: rest => decimal o ++ '.' :: renderDone rest

/-- The `k` low hexadecimal digits of `v`, most significant first. -/
def nibbles : Nat → Nat → List Char
  | 0, _ => []
  | k + 1, v => nibbles k (v / 16) ++ [hexDigitUpper (v % 16)]

/-- The exit code of `main` past the argument-count check, from the text of
`argv[1]`, the value of `targetIp` and the table. -/
def exitCodeOf (portText targetIp : List Char) (file : Option (List (List Char))) :
    Except Fault Nat :=
  match stoi portText with
  | none => .ok NOT_FOUND
  | some n =>
    match isPortOpen file (toUnsigned n) targetIp with
    | .error e => .error e
    | .ok true => .ok SUCCESS
    | .ok false => .ok NOT_FOUND

/-- A trace without lines other than those of `debug`: each event is the
opening of the table or a `[DEBUG]` line on standard output, the latter only
with `logDebugEnabled` set. -/
def DebugOnly (log : LogFlags) (events : List Event) : Prop :=
  ∀ e ∈ events, e = Event.openTable ∨
    (log.logDebugEnabled = true ∧
      ∃ msg, e = Event.write OutStream.stdout ("[DEBUG] ".toList ++ msg))

/-! ## Lemmas -/

/-- On a lowercase letter `toupper` subtracts 32 from the character code. -/
theorem toupper_toNat_of_lower (c : Char) (h : 97 ≤ c.toNat ∧ c.toNat ≤ 122) :
    (toupper c).toNat = c.toNat - 32 := by
  obtain ⟨h1, h2⟩ := h
  have hc : c = Char.ofNat c.toNat := (Char.ofNat_toNat c).symm
  rw [hc]
  generalize c.toNat = n at h1 h2
  interval_cases n <;> rfl

/-- The function `toupper` keeps every character that is no lowercase letter. -/
theorem toupper_of_not_lower (c : Char) (h : islower c = false) : toupper c = c := by
  unfold islower at h
  unfold toupper
  simp only [decide_eq_false_iff_not] at h
  rw [if_neg h]

/-- No image of `toupper` is a lowercase letter. -/
theorem islower_toupper (c : Char) : islower (toupper c) = false := by
  by_cases h : 97 ≤ c.toNat ∧ c.toNat ≤ 122
  · have := toupper_toNat_of_lower c h
    unfold islower
    simp only [decide_eq_false_iff_not]
    omega
  · have h2 : islower c = false := by
      unfold islower; simpa using h
    rw [toupper_of_not_lower c h2]; exact h2

/-- The loop over `a ++ b` is the loop over `b` started in the state the loop over `a` leaves. -/
theorem normalizeLoop_append (d : List Char) (a b : List Char) :
    ∀ (fields : List (List Char)) (cur : List Char),
      normalizeLoop d (a ++ b) fields cur =
        normalizeLoop d b (normalizeLoop d a fields cur).1 (normalizeLoop d a fields cur).2 := by
  induction a with
  | nil => intro fields cur; rfl
  | cons c rest ih =>
    intro fields cur
    simp only [List.cons_append, normalizeLoop]
    split
    · split
      · exact ih _ _
      · exact ih _ _
    · exact ih _ _

/-- Over characters that are no delimiters the loop only extends the open field. -/
theorem normalizeLoop_word (d : List Char) (w : List Char)
    (hw : ∀ c ∈ w, d.contains c = false) :
    ∀ (fields : List (List Char)) (cur : List Char),
      normalizeLoop d w fields cur = (fields, cur ++ w) := by
  induction w with
  | nil => intro fields cur; simp [normalizeLoop]
  | cons c rest ih =>
    intro fields cur
    have hc : d.contains c = false := hw c (List.mem_cons_self _ _)
    have hr : ∀ x ∈ rest, d.contains x = false := fun x hx => hw x (List.mem_cons_of_mem _ hx)
    simp only [normalizeLoop, hc, Bool.false_eq_true, if_false]
    rw [ih hr]
    simp

/-- Over delimiters, with no field open, the loop changes nothing. -/
theorem normalizeLoop_delims_nil (d : List Char) (s : List Char)
    (hs : ∀ c ∈ s, d.contains c = true) :
    ∀ (fields : List (List Char)),
      normalizeLoop d s fields [] = (fields, []) := by
  induction s with
  | nil => intro fields; rfl
  | cons c rest ih =>
    intro fields
    have hc : d.contains c = true := hs c (List.mem_cons_self _ _)
    have hr : ∀ x ∈ rest, d.contains x = true := fun x hx => hs x (List.mem_cons_of_mem _ hx)
    simp only [normalizeLoop, hc, if_true, ne_eq, not_true_eq_false, if_false]
    exact ih hr _

/-- Over a non-empty run of delimiters the loop pushes the open field and clears it. -/
theorem normalizeLoop_delims (d : List Char) (s : List Char)
    (hs : ∀ c ∈ s, d.contains c = true) (hne : s ≠ [])
    (fields : List (List Char)) (cur : List Char) (hcur : cur ≠ []) :
    normalizeLoop d s fields cur = (fields ++ [cur], []) := by
  cases s with
  | nil => exact absurd rfl hne
  | cons c rest =>
    have hc : d.contains c = true := hs c (List.mem_cons_self _ _)
    have hr : ∀ x ∈ rest, d.contains x = true := fun x hx => hs x (List.mem_cons_of_mem _ hx)
    simp only [normalizeLoop, hc, if_true, ne_eq, hcur, not_false_eq_true]
    exact normalizeLoop_delims_nil d rest hr _

/-- The closing step of `normalizeLine` on the state the loop leaves. -/
theorem normalizeLine_eq (line d : List Char) :
    normalizeLine line d =
      if (normalizeLoop d line [] []).2.map toupper ≠ [] then
        (normalizeLoop d line [] []).1 ++ [(normalizeLoop d line [] []).2.map toupper]
      else (normalizeLoop d line [] []).1 := rfl

/-- Uppercasing keeps a string without lowercase letters. -/
theorem map_toupper_of_no_lower (t : List Char) (h : ∀ c ∈ t, islower c = false) :
    t.map toupper = t := by
  induction t with
  | nil => rfl
  | cons c rest ih =>
    simp only [List.map_cons]
    rw [toupper_of_not_lower c (h c (List.mem_cons_self _ _)),
      ih (fun x hx => h x (List.mem_cons_of_mem _ hx))]

/-- The loop and the closing step on joined segments, started with any fields pushed before. -/
theorem normalizeLoop_join (d : List Char) :
    ∀ (segs : List (List Char × List Char)) (fields : List (List Char)),
      (∀ p ∈ segs, p.1 ≠ [] ∧ (∀ c ∈ p.1, d.contains c = false ∧ islower c = false)
        ∧ ∀ c ∈ p.2, d.contains c = true) →
      (∀ p ∈ segs.dropLast, p.2 ≠ []) →
      (if (normalizeLoop d (joinSegments segs) fields []).2.map toupper ≠ [] then
        (normalizeLoop d (joinSegments segs) fields []).1
          ++ [(normalizeLoop d (joinSegments segs) fields []).2.map toupper]
      else (normalizeLoop d (joinSegments segs) fields []).1) = fields ++ segs.map Prod.fst := by
  intro segs
  induction segs with
  | nil => intro fields _ _; simp [joinSegments, normalizeLoop]
  | cons p rest ih =>
    intro fields hseg hsep
    obtain ⟨hne, htok, hrun⟩ := hseg p (List.mem_cons_self _ _)
    have hrest : ∀ q ∈ rest, q.1 ≠ [] ∧ (∀ c ∈ q.1, d.contains c = false ∧ islower c = false)
        ∧ ∀ c ∈ q.2, d.contains c = true := fun q hq => hseg q (List.mem_cons_of_mem _ hq)
    have hword : normalizeLoop d p.1 fields [] = (fields, p.1) := by
      rw [normalizeLoop_word d p.1 (fun c hc => (htok c hc).1)]; simp
    simp only [joinSegments, List.append_assoc]
    rw [normalizeLoop_append, hword]
    by_cases hp2 : p.2 = []
    · -- the last token: nothing follows it
      have hrnil : rest = [] := by
        cases rest with
        | nil => rfl
        | cons q r =>
          exact absurd hp2 (hsep p (by simp [List.dropLast]))
      subst hrnil
      simp only [hp2, joinSegments, List.append_nil, normalizeLoop, List.map_cons, List.map_nil]
      rw [map_toupper_of_no_lower p.1 (fun c hc => (htok c hc).2)]
      simp [hne]
    · rw [normalizeLoop_append, normalizeLoop_delims d p.2 hrun hp2 fields p.1 hne]
      have hsep2 : ∀ q ∈ rest.dropLast, q.2 ≠ [] := by
        intro q hq
        cases rest with
        | nil => simp at hq
        | cons q0 r => exact hsep q (by simp [List.dropLast]; right; simpa using hq)
      have := ih (fields ++ [p.1]) hrest hsep2
      simp only at this ⊢
      rw [this]
      simp

/-- Loop invariant: pushed fields are non-empty and free of delimiters, and the open field is free of delimiters. -/
theorem normalizeLoop_invariant (d : List Char) (line : List Char) :
    ∀ (fields : List (List Char)) (cur : List Char),
      (∀ f ∈ fields, f ≠ [] ∧ ∀ c ∈ f, d.contains c = false) →
      (∀ c ∈ cur, d.contains c = false) →
      (∀ f ∈ (normalizeLoop d line fields cur).1, f ≠ [] ∧ ∀ c ∈ f, d.contains c = false) ∧
      (∀ c ∈ (normalizeLoop d line fields cur).2, d.contains c = false) := by
  induction line with
  | nil => intro fields cur hf hc; exact ⟨hf, hc⟩
  | cons c rest ih =>
    intro fields cur hf hc
    simp only [normalizeLoop]
    split
    · split
      · rename_i hcur
        apply ih
        · intro f hfm
          rcases List.mem_append.mp hfm with h | h
          · exact hf f h
          · have : f = cur := by simpa using h
            subst this
            exact ⟨hcur, hc⟩
        · intro x hx; simp at hx
      · exact ih _ _ hf hc
    · rename_i hnd
      apply ih _ _ hf
      intro x hx
      rcases List.mem_append.mp hx with h | h
      · exact hc x h
      · have : x = c := by simpa using h
        subst this
        simpa using hnd

/-- Every token is non-empty, whatever the delimiter set. -/
theorem normalizeLine_token_ne_nil (line d : List Char) :
    ∀ t ∈ normalizeLine line d, t ≠ [] := by
  intro t ht
  have inv := normalizeLoop_invariant d line [] [] (by simp) (by simp)
  rw [normalizeLine_eq] at ht
  split at ht
  · rename_i hne
    rcases List.mem_append.mp ht with h | h
    · exact (inv.1 t h).1
    · have : t = (normalizeLoop d line [] []).2.map toupper := by simpa using h
      rw [this]; exact hne
  · exact (inv.1 t ht).1

/-- No character outside the default delimiter set is uppercased into it. -/
theorem defaultDelimiters_toupper (c : Char)
    (h : defaultDelimiters.contains c = false) :
    defaultDelimiters.contains (toupper c) = false := by
  by_cases hl : 97 ≤ c.toNat ∧ c.toNat ≤ 122
  · have ht := toupper_toNat_of_lower c hl
    have h1 : toupper c ≠ ' ' := by
      intro e; rw [e] at ht; have : (' ' : Char).toNat = 32 := rfl; omega
    have h2 : toupper c ≠ '\t' := by
      intro e; rw [e] at ht; have : ('\t' : Char).toNat = 9 := rfl; omega
    have h3 : toupper c ≠ ':' := by
      intro e; rw [e] at ht; have : (':' : Char).toNat = 58 := rfl; omega
    simp [defaultDelimiters, h1, h2, h3]
  · have : toupper c = c := by unfold toupper; rw [if_neg hl]
    rw [this]; exact h

/-- After a delimiter no field is open. -/
theorem normalizeLoop_snd_nil_of_delim (d : List Char) (p : List Char) (c : Char)
    (hc : d.contains c = true) (fields : List (List Char)) (cur : List Char) :
    (normalizeLoop d (p ++ [c]) fields cur).2 = [] := by
  rw [normalizeLoop_append]
  simp only [normalizeLoop, hc, if_true]
  split
  · rfl
  · rename_i h
    simpa using h

/-- A list is its longest suffix satisfying `p` appended to what is in front of it. -/
theorem rdropWhile_append_rtakeWhile_eq (p : Char → Bool) (l : List Char) :
    l.rdropWhile p ++ l.rtakeWhile p = l := by
  unfold List.rdropWhile List.rtakeWhile
  rw [← List.reverse_append, List.takeWhile_append_dropWhile, List.reverse_reverse]

/-- On the 22 hexadecimal digits `hexDigitValue` agrees with `hexNumeral`; none is white space, a sign or the letter of the `0x` prefix. -/
theorem hexDigitValue_of_mem : ∀ c ∈ hexDigitChars,
    hexDigitValue c = some (hexNumeral c) ∧ hexNumeral c < 16 ∧ isspace c = false
      ∧ c ≠ '-' ∧ c ≠ '+' ∧ c ≠ 'x' ∧ c ≠ 'X' := by
  decide

/-- Reading further digits never lowers the value. -/
theorem foldl_hex_ge (s : List Char) : ∀ r : Nat,
    r ≤ s.foldl (fun acc c => 16 * acc + hexNumeral c) r := by
  induction s with
  | nil => intro r; exact Nat.le_refl _
  | cons c rest ih =>
    intro r
    simp only [List.foldl_cons]
    exact Nat.le_trans (by omega) (ih _)

/-- The overflow flag stays set, and the digit count never drops. -/
theorem extractDigits_overflow (s : List Char) : ∀ (r cnt : Nat),
    (extractDigits s r true cnt).2.1 = true ∧ cnt ≤ (extractDigits s r true cnt).2.2 := by
  induction s with
  | nil => intro r cnt; exact ⟨rfl, Nat.le_refl _⟩
  | cons c rest ih =>
    intro r cnt
    simp only [extractDigits]
    split
    · exact ⟨rfl, Nat.le_refl _⟩
    · split
      · exact ih _ _
      · simp only [Bool.true_or]
        exact ⟨(ih _ _).1, Nat.le_trans (Nat.le_succ _) (ih _ _).2⟩

/-- The digit loop on hexadecimal digits: the value is exact while it fits 32 bits, the overflow flag is set exactly when it does not, and a digit is counted. -/
theorem extractDigits_hex (s : List Char) (hs : ∀ c ∈ s, c ∈ hexDigitChars) :
    ∀ (r cnt : Nat), r ≤ UINT_MAX →
      (s.foldl (fun acc c => 16 * acc + hexNumeral c) r ≤ UINT_MAX →
        (extractDigits s r false cnt).1 = s.foldl (fun acc c => 16 * acc + hexNumeral c) r ∧
        (extractDigits s r false cnt).2.1 = false) ∧
      (UINT_MAX < s.foldl (fun acc c => 16 * acc + hexNumeral c) r →
        (extractDigits s r false cnt).2.1 = true) ∧
      cnt ≤ (extractDigits s r false cnt).2.2 ∧
      (s ≠ [] → r = 0 → cnt < (extractDigits s r false cnt).2.2) := by
  induction s with
  | nil =>
    intro r cnt hr
    exact ⟨fun _ => ⟨rfl, rfl⟩, fun h => absurd h (Nat.not_lt.mpr hr), Nat.le_refl _,
      fun h => absurd rfl h⟩
  | cons c rest ih =>
    intro r cnt hr
    obtain ⟨hv, hlt, -⟩ := hexDigitValue_of_mem c (hs c (List.mem_cons_self _ _))
    have hrest : ∀ x ∈ rest, x ∈ hexDigitChars := fun x hx => hs x (List.mem_cons_of_mem _ hx)
    have hge := foldl_hex_ge rest (16 * r + hexNumeral c)
    simp only [List.foldl_cons, extractDigits, hv]
    have hU : UINT_MAX = 4294967295 := rfl
    by_cases hbig : r > UINT_MAX / 16
    · rw [if_pos hbig]
      have hb : 268435455 < r := by rw [hU] at hbig; omega
      have ho := extractDigits_overflow rest r cnt
      refine ⟨fun h => ?_, fun _ => ho.1, ho.2, fun _ h0 => ?_⟩
      · rw [hU] at h; omega
      · omega
    · rw [if_neg hbig]
      have hb : r ≤ 268435455 := by rw [hU] at hbig; omega
      by_cases hov : r * 16 > UINT_MAX - hexNumeral c
      · have ho := extractDigits_overflow rest ((r * 16 + hexNumeral c) % 2 ^ 32) (cnt + 1)
        simp only [hov, decide_True, Bool.or_true]
        refine ⟨fun h => ?_, fun _ => ho.1, by omega, fun _ _ => by omega⟩
        rw [hU] at h hov; omega
      · have hsmall : r * 16 + hexNumeral c ≤ 4294967295 := by rw [hU] at hov; omega
        have hmod : (r * 16 + hexNumeral c) % 2 ^ 32 = 16 * r + hexNumeral c := by
          rw [Nat.mod_eq_of_lt (by omega)]; omega
        simp only [hov, decide_False, Bool.or_false, hmod]
        have := ih hrest (16 * r + hexNumeral c) (cnt + 1) (by rw [hU]; omega)
        refine ⟨this.1, this.2.1, by omega, fun _ _ => by omega⟩

/-- The digit loop from the start state, in terms of `hexValue`. -/
theorem extractDigits_hexValue (s : List Char) (hs : ∀ c ∈ s, c ∈ hexDigitChars) :
    (hexValue s ≤ UINT_MAX →
      (extractDigits s 0 false 0).1 = hexValue s ∧ (extractDigits s 0 false 0).2.1 = false) ∧
    (UINT_MAX < hexValue s → (extractDigits s 0 false 0).2.1 = true) ∧
    (s ≠ [] → (extractDigits s 0 false 0).2.2 ≠ 0) := by
  have key := extractDigits_hex s hs 0 0 (by decide)
  exact ⟨key.1, key.2.1, fun h => Nat.pos_iff_ne_zero.mp (key.2.2.2 h rfl)⟩

/-- A leading zero does not change the value. -/
theorem hexValue_zero_cons (rest : List Char) : hexValue ('0' :: rest) = hexValue rest := by
  unfold hexValue
  rw [List.foldl_cons]
  rfl

/-- On a hex-digit string `hexToInt` yields the number the string denotes, or
`UINT_MAX` when that number does not fit into 32 bits. -/
theorem hexToInt_hexString (s : List Char) (hs : IsHexString s) :
    hexToInt s = .ok (if hexValue s ≤ UINT_MAX then hexValue s else UINT_MAX) := by
  obtain ⟨hne, hall⟩ := hs
  cases s with
  | nil => exact absurd rfl hne
  | cons c rest =>
    obtain ⟨hv, hlt, hsp, hminus, hplus, -, -⟩ := hexDigitValue_of_mem c (hall c (List.mem_cons_self _ _))
    have hrest : ∀ x ∈ rest, x ∈ hexDigitChars := fun x hx => hall x (List.mem_cons_of_mem _ hx)
    have hdrop : (c :: rest).dropWhile isspace = c :: rest := by
      simp [List.dropWhile, hsp]
    unfold hexToInt
    rw [hdrop]
    simp only [extractSign, hminus, hplus, if_false]
    by_cases hz : c = '0'
    · subst hz
      rw [hexValue_zero_cons]
      cases rest with
      | nil =>
        simp only [extractZeroX, if_true, extractDigits]
        have : hexValue [] = 0 := rfl
        rw [this]
        simp
      | cons x r2 =>
        obtain ⟨-, -, -, -, -, hx1, hx2⟩ := hexDigitValue_of_mem x (hall x (by simp))
        simp only [extractZeroX, if_true, hx1, hx2, or_self, if_false]
        have key := extractDigits_hexValue (x :: r2) hrest
        generalize hexValue (x :: r2) = V at key ⊢
        generalize extractDigits (x :: r2) 0 false 0 = dg at key ⊢
        by_cases hfit : V ≤ UINT_MAX
        · obtain ⟨h1, h2⟩ := key.1 hfit
          simp [h1, h2, hfit]
        · have h2 := key.2.1 (by omega)
          simp [h2, hfit]
    · simp only [extractZeroX, hz, if_false]
      have key := extractDigits_hexValue (c :: rest) hall
      have hcnt := key.2.2 (by simp)
      generalize hexValue (c :: rest) = V at key ⊢
      generalize extractDigits (c :: rest) 0 false 0 = dg at key hcnt ⊢
      by_cases hfit : V ≤ UINT_MAX
      · obtain ⟨h1, h2⟩ := key.1 hfit
        simp [h1, h2, hfit, hcnt]
      · have h2 := key.2.1 (by omega)
        simp [h2, hfit, hcnt]

/-- Along a run of digits `inetPton4Loop` moves as `digitRun` says. -/
theorem inetPton4Loop_digitRun (p : List Char) :
    ∀ (rest : List Char) (done : List Nat) (tp : Nat) (saw : Bool) (k : Nat)
      (st : Nat × Bool × Nat),
      digitRun p tp saw k = some st →
      inetPton4Loop (p ++ rest) done tp saw k = inetPton4Loop rest done st.1 st.2.1 st.2.2 := by
  induction p with
  | nil =>
    intro rest done tp saw k st h
    simp only [digitRun, Option.some.injEq] at h
    subst h; rfl
  | cons ch p ih =>
    intro rest done tp saw k st h
    by_cases hd : 48 ≤ ch.toNat ∧ ch.toNat ≤ 57
    · simp only [digitRun, if_pos hd] at h
      simp only [List.cons_append, inetPton4Loop, if_pos hd]
      by_cases h1 : saw = true ∧ tp = 0
      · simp only [digitStep, if_pos h1] at h
        exact absurd h (by simp)
      · by_cases h2 : tp * 10 + (ch.toNat - 48) > 255
        · simp only [digitStep, if_neg h1, if_pos h2] at h
          exact absurd h (by simp)
        · by_cases h3 : saw = false
          · by_cases h4 : k + 1 > 4
            · simp only [digitStep, if_neg h1, if_neg h2, if_pos h3, if_pos h4] at h
              exact absurd h (by simp)
            · simp only [digitStep, if_neg h1, if_neg h2, if_pos h3, if_neg h4] at h
              rw [if_neg h1, if_neg h2, if_pos h3, if_neg h4]
              exact ih rest done _ _ _ st h
          · simp only [digitStep, if_neg h1, if_neg h2, if_neg h3] at h
            rw [if_neg h1, if_neg h2, if_neg h3]
            exact ih rest done _ _ _ st h
    · simp only [digitRun, if_neg hd] at h
      exact absurd h (by simp)

set_option maxRecDepth 100000 in
/-- Reading the decimal numeral of `n` below 256 at the start of an octet yields `n`. -/
theorem decimal_digitRun : ∀ n < 256, ∀ k < 4,
    digitRun (decimal n) 0 false k = some (n, true, k + 1) := by
  decide

/-- The call `inet_pton4` accepts `a.b.c.d` and delivers `a`, `b`, `c`, `d`. -/
theorem inet_pton4_dottedQuad (a b c d : Nat) (ha : a ≤ 255) (hb : b ≤ 255)
    (hc : c ≤ 255) (hd : d ≤ 255) :
    inet_pton4 (dottedQuad a b c d) = some [a, b, c, d] := by
  unfold inet_pton4 dottedQuad
  rw [inetPton4Loop_digitRun (decimal a) _ [] 0 false 0 _
    (decimal_digitRun a (by omega) 0 (by decide))]
  simp only [inetPton4Loop]
  rw [if_neg (by decide), if_pos (by decide), if_neg (by decide)]
  rw [inetPton4Loop_digitRun (decimal b) _ _ 0 false 1 _
    (decimal_digitRun b (by omega) 1 (by decide))]
  simp only [inetPton4Loop]
  rw [if_neg (by decide), if_pos (by decide), if_neg (by decide)]
  rw [inetPton4Loop_digitRun (decimal c) _ _ 0 false 2 _
    (decimal_digitRun c (by omega) 2 (by decide))]
  simp only [inetPton4Loop]
  rw [if_neg (by decide), if_pos (by decide), if_neg (by decide)]
  have := inetPton4Loop_digitRun (decimal d) [] ([] ++ [a] ++ [b] ++ [c]) 0 false 3 _
    (decimal_digitRun d (by omega) 3 (by decide))
  rw [List.append_nil] at this
  rw [this]
  simp [inetPton4Loop]

/-- A digit is the decimal numeral of its value. -/
theorem decimal_of_digit (ch : Char) (h : 48 ≤ ch.toNat ∧ ch.toNat ≤ 57) :
    decimal (ch.toNat - 48) = [ch] := by
  obtain ⟨h1, h2⟩ := h
  have hc : ch = Char.ofNat ch.toNat := (Char.ofNat_toNat ch).symm
  rw [hc]
  generalize ch.toNat = n at h1 h2
  interval_cases n <;> rfl

set_option maxRecDepth 100000 in
/-- Appending a digit to the numeral of a positive number multiplies by ten and adds. -/
theorem decimal_snoc : ∀ tp < 26, ∀ v < 10, 0 < tp → tp * 10 + v ≤ 255 →
    decimal (tp * 10 + v) = decimal tp ++ decimal v := by
  decide

/-- Closing one more octet appends its numeral and a dot. -/
theorem renderDone_append (done : List Nat) (tp : Nat) :
    renderDone (done ++ [tp]) = renderDone done ++ (decimal tp ++ ['.']) := by
  induction done with
  | nil => simp [renderDone]
  | cons o rest ih => simp [renderDone, ih]

/-- Whatever `inetPton4Loop` accepts is a dotted quad: the text consumed so far is always the rendering of the loop state. -/
theorem inetPton4Loop_sound (src : List Char) :
    ∀ (consumed : List Char) (done : List Nat) (tp : Nat) (saw : Bool) (k : Nat)
      (bytes : List Nat),
      consumed = renderDone done ++ (if saw = true then decimal tp else []) →
      (∀ o ∈ done, o ≤ 255) → tp ≤ 255 → (saw = false → tp = 0) →
      k = done.length + (if saw = true then 1 else 0) → done.length ≤ 3 →
      inetPton4Loop src done tp saw k = some bytes →
      ∃ a b c d, a ≤ 255 ∧ b ≤ 255 ∧ c ≤ 255 ∧ d ≤ 255 ∧
        consumed ++ src = dottedQuad a b c d ∧ bytes = [a, b, c, d] := by
  induction src with
  | nil =>
    intro consumed done tp saw k bytes hcons hdone htp hsaw hk hlen h
    simp only [inetPton4Loop] at h
    split at h
    · simp at h
    · rename_i hk4
      simp only [Option.some.injEq] at h
      have hs : saw = true := by
        cases saw with
        | true => rfl
        | false => simp at hk; omega
      subst hs
      simp only [if_true] at hk hcons
      have hl : done.length = 3 := by omega
      match done, hl, hdone with
      | [a, b, c], _, hdone =>
        refine ⟨a, b, c, tp, hdone a (by simp), hdone b (by simp), hdone c (by simp), htp, ?_, ?_⟩
        · rw [hcons]; simp [renderDone, dottedQuad]
        · rw [← h]; rfl
  | cons ch src ih =>
    intro consumed done tp saw k bytes hcons hdone htp hsaw hk hlen h
    have happ : consumed ++ ch :: src = (consumed ++ [ch]) ++ src := by simp
    rw [happ]
    by_cases hd : 48 ≤ ch.toNat ∧ ch.toNat ≤ 57
    · simp only [inetPton4Loop, if_pos hd] at h
      by_cases h1 : saw = true ∧ tp = 0
      · rw [if_pos h1] at h; exact absurd h (by simp)
      · rw [if_neg h1] at h
        by_cases h2 : tp * 10 + (ch.toNat - 48) > 255
        · rw [if_pos h2] at h; exact absurd h (by simp)
        · rw [if_neg h2] at h
          by_cases h3 : saw = false
          · rw [if_pos h3] at h
            by_cases h4 : k + 1 > 4
            · rw [if_pos h4] at h; exact absurd h (by simp)
            · rw [if_neg h4] at h
              have ht0 := hsaw h3
              subst h3
              subst ht0
              refine ih (consumed ++ [ch]) done _ true (k + 1) bytes ?_ hdone (by omega)
                (by simp) (by simp at hk ⊢; omega) hlen h
              simp only [if_true, Nat.zero_mul, Nat.zero_add]
              rw [decimal_of_digit ch hd, hcons]
              simp
          · rw [if_neg h3] at h
            have hs : saw = true := by simpa using h3
            subst hs
            have htp0 : tp ≠ 0 := fun e => h1 ⟨rfl, e⟩
            refine ih (consumed ++ [ch]) done _ true k bytes ?_ hdone (by omega)
              (by simp) hk hlen h
            simp only [if_true] at hcons ⊢
            have hv : ch.toNat - 48 < 10 := by omega
            rw [decimal_snoc tp (by omega) (ch.toNat - 48) hv (by omega) (by omega),
              decimal_of_digit ch hd, hcons]
            simp
    · simp only [inetPton4Loop, if_neg hd] at h
      by_cases hdot : ch = '.' ∧ saw = true
      · rw [if_pos hdot] at h
        obtain ⟨hch, hs⟩ := hdot
        subst hch
        subst hs
        by_cases hk4 : k = 4
        · rw [if_pos hk4] at h; exact absurd h (by simp)
        · rw [if_neg hk4] at h
          simp only [if_true] at hk hcons
          refine ih (consumed ++ ['.']) (done ++ [tp]) 0 false k bytes ?_ ?_ (by omega)
            (fun _ => rfl) (by simp; omega) (by simp; omega) h
          · rw [renderDone_append, hcons]; simp
          · intro o ho
            rcases List.mem_append.mp ho with h' | h'
            · exact hdone o h'
            · have : o = tp := by simpa using h'
              omega
      · rw [if_neg hdot] at h; exact absurd h (by simp)

/-- The call `inet_pton(AF_INET, ...)` accepts exactly the IPv4 literals, and
delivers their four numbers. -/
theorem inet_pton4_eq_some_iff (s : List Char) (bytes : List Nat) :
    inet_pton4 s = some bytes ↔
      ∃ a b c d, a ≤ 255 ∧ b ≤ 255 ∧ c ≤ 255 ∧ d ≤ 255 ∧
        s = dottedQuad a b c d ∧ bytes = [a, b, c, d] := by
  constructor
  · intro h
    have := inetPton4Loop_sound s [] [] 0 false 0 bytes (by simp [renderDone])
      (by simp) (by omega) (fun _ => rfl) (by simp) (by simp) h
    simpa using this
  · rintro ⟨a, b, c, d, ha, hb, hc, hd, rfl, rfl⟩
    exact inet_pton4_dottedQuad a b c d ha hb hc hd

/-- The IPv4 literals are the strings `inet_pton4` accepts. -/
theorem isIPv4Literal_iff (s : List Char) :
    IsIPv4Literal s ↔ inet_pton4 s ≠ none := by
  constructor
  · rintro ⟨a, b, c, d, ha, hb, hc, hd, rfl⟩
    rw [inet_pton4_dottedQuad a b c d ha hb hc hd]; simp
  · intro h
    cases hb : inet_pton4 s with
    | none => exact absurd hb h
    | some bytes =>
      obtain ⟨a, b, c, d, ha, hb', hc, hd, hs, -⟩ := (inet_pton4_eq_some_iff s bytes).mp hb
      exact ⟨a, b, c, d, ha, hb', hc, hd, hs⟩

/-- The formatted address has at least 8 characters. -/
theorem formatHex8_ne_nil (v : Nat) : formatHex8 v ≠ [] := by
  intro h
  have := congrArg List.length h
  simp only [formatHex8, List.length_append, List.length_replicate, List.length_nil] at this
  omega

/-- On an IPv4 literal `ipToHex` returns a non-empty string. -/
theorem ipToHex_ne_nil_of_literal (ip : List Char) (h : IsIPv4Literal (c_str ip)) :
    ipToHex ip ≠ [] := by
  have hne : ip ≠ [] := by
    rintro rfl
    have := (isIPv4Literal_iff _).mp h
    exact this rfl
  unfold ipToHex
  rw [if_neg hne]
  cases hb : inet_pton4 (c_str ip) with
  | none => exact absurd hb ((isIPv4Literal_iff _).mp h)
  | some bytes => exact formatHex8_ne_nil _

/-- On anything else `ipToHex` returns the empty string. -/
theorem ipToHex_eq_nil_of_not_literal (ip : List Char) (h : ¬ IsIPv4Literal (c_str ip)) :
    ipToHex ip = [] := by
  unfold ipToHex
  split
  · rfl
  · have : inet_pton4 (c_str ip) = none := by
      by_contra hn
      exact h ((isIPv4Literal_iff _).mpr hn)
    rw [this]

/-- An access below the size succeeds. -/
theorem fieldAt_of_lt (fields : List (List Char)) (i : Nat) (h : i < fields.length) :
    fieldAt fields i = .ok (fields.getD i []) := by
  unfold fieldAt
  rw [List.get?_eq_get h, List.getD_eq_getElem _ _ h]
  rfl

/-- A line with fewer than 6 tokens is skipped before any token is read. -/
theorem checkLine_short (targetPort : Nat) (targetIpHex line : List Char)
    (h : (normalizeLine line defaultDelimiters).length < 6) :
    checkLine targetPort targetIpHex line = .ok false := by
  unfold checkLine
  simp only
  rw [if_pos (by unfold FIELD_STATE; omega)]

/-- The loop body on a well-formed row, for a target port below `UINT_MAX`. -/
theorem checkLine_wellFormed (P : Nat) (hP : P < UINT_MAX) (targetIpHex line : List Char)
    (hw : WellFormedRow line) :
    (checkLine P targetIpHex line = .ok true ↔
      ListeningOn P line ∧ (targetIpHex = [] ∨ targetIpHex = field line FIELD_LOCAL_IP)) ∧
    (checkLine P targetIpHex line = .ok true ∨ checkLine P targetIpHex line = .ok false) := by
  obtain ⟨hlen, hport, hstate⟩ := hw
  have hU : UINT_MAX = 4294967295 := rfl
  unfold checkLine
  simp only
  rw [if_neg (by unfold FIELD_STATE; omega)]
  rw [fieldAt_of_lt _ FIELD_SL (by unfold FIELD_SL; omega),
    fieldAt_of_lt _ FIELD_LOCAL_IP (by unfold FIELD_LOCAL_IP; omega),
    fieldAt_of_lt _ FIELD_LOCAL_PORT (by unfold FIELD_LOCAL_PORT; omega),
    fieldAt_of_lt _ FIELD_STATE (by unfold FIELD_STATE; omega)]
  simp only
  have hs := hexToInt_hexString _ hstate
  have hp := hexToInt_hexString _ hport
  unfold field at hs hp
  rw [hs]
  simp only
  unfold ListeningOn field
  generalize hexValue ((normalizeLine line defaultDelimiters).getD FIELD_STATE []) = vs at *
  generalize (normalizeLine line defaultDelimiters).getD FIELD_LOCAL_IP [] = la at *
  by_cases h10 : (if vs ≤ UINT_MAX then vs else UINT_MAX) = STATE_LISTENING
  · have hvs : vs = 10 := by
      unfold STATE_LISTENING at h10
      split at h10
      · exact h10
      · omega
    rw [if_pos h10, hp]
    simp only
    generalize hexValue ((normalizeLine line defaultDelimiters).getD FIELD_LOCAL_PORT []) = vp at *
    by_cases hpp : (if vp ≤ UINT_MAX then vp else UINT_MAX) = P
    · have hvp : vp = P := by
        split at hpp
        · exact hpp
        · omega
      rw [if_pos hpp]
      by_cases he : targetIpHex = []
      · rw [if_pos he]; simp [hvs, hvp, he]
      · rw [if_neg he]
        by_cases ha : targetIpHex = la
        · rw [if_pos ha]; simp [hvs, hvp, ← ha]
        · rw [if_neg ha]; simp [he, ha]
    · have hvp : vp ≠ P := by
        intro e
        apply hpp
        rw [if_pos (by omega)]; exact e
      rw [if_neg hpp]; simp [hvp]
  · have hvs : vs ≠ 10 := by
      intro e
      apply h10
      rw [if_pos (by omega)]; exact e
    rw [if_neg h10]; simp [hvs]

/-- When the loop body faults on no row, the scan returns true exactly when the body does on some row. -/
theorem scanLines_iff (P : Nat) (hex : List Char) (rows : List (List Char))
    (h : ∀ r ∈ rows, checkLine P hex r = .ok true ∨ checkLine P hex r = .ok false) :
    (scanLines P hex rows = .ok true ↔ ∃ r ∈ rows, checkLine P hex r = .ok true) ∧
    (scanLines P hex rows = .ok true ∨ scanLines P hex rows = .ok false) := by
  induction rows with
  | nil => simp [scanLines]
  | cons r rest ih =>
    have ih' := ih (fun x hx => h x (List.mem_cons_of_mem _ hx))
    rcases h r (List.mem_cons_self _ _) with hr | hr
    · simp [scanLines, hr]
    · simp only [scanLines, hr, List.mem_cons, exists_eq_or_imp]
      refine ⟨?_, ih'.2⟩
      rw [ih'.1]
      simp

/-- Without an address `isPortOpen` scans the rows after the header with no filter. -/
theorem isPortOpen_no_address (header : List Char) (rows : List (List Char)) (P : Nat) :
    isPortOpen (some (header :: rows)) P [] = scanLines P [] rows := by
  simp [isPortOpen]

/-- With an address that `ipToHex` encodes, `isPortOpen` scans the rows after the header with that filter. -/
theorem isPortOpen_address (header : List Char) (rows : List (List Char)) (P : Nat)
    (A : List Char) (hA : ipToHex A ≠ []) :
    isPortOpen (some (header :: rows)) P A = scanLines P (ipToHex A) rows := by
  have hne : A ≠ [] := by
    rintro rfl
    exact hA rfl
  simp [isPortOpen, hne, hA]

/-- The function `hexToInt` reads no vector. -/
theorem hexToInt_ne_outOfRange (s : List Char) : hexToInt s ≠ .error .outOfRange := by
  unfold hexToInt
  split
  · simp
  · simp only
    split
    · simp
    · split
      · simp
      · split <;> simp

/-- The loop body never reads a token at or beyond the token count. -/
theorem checkLine_ne_outOfRange (targetPort : Nat) (targetIpHex line : List Char) :
    checkLine targetPort targetIpHex line ≠ .error .outOfRange := by
  by_cases hlen : (normalizeLine line defaultDelimiters).length < 6
  · rw [checkLine_short _ _ _ hlen]; simp
  · unfold checkLine
    simp only
    rw [if_neg (by unfold FIELD_STATE; omega)]
    rw [fieldAt_of_lt _ FIELD_SL (by unfold FIELD_SL; omega),
      fieldAt_of_lt _ FIELD_LOCAL_IP (by unfold FIELD_LOCAL_IP; omega),
      fieldAt_of_lt _ FIELD_LOCAL_PORT (by unfold FIELD_LOCAL_PORT; omega),
      fieldAt_of_lt _ FIELD_STATE (by unfold FIELD_STATE; omega)]
    simp only
    have h1 := hexToInt_ne_outOfRange ((normalizeLine line defaultDelimiters).getD FIELD_STATE [])
    have h2 := hexToInt_ne_outOfRange
      ((normalizeLine line defaultDelimiters).getD FIELD_LOCAL_PORT [])
    generalize hexToInt ((normalizeLine line defaultDelimiters).getD FIELD_STATE []) = r1 at h1 ⊢
    generalize hexToInt ((normalizeLine line defaultDelimiters).getD FIELD_LOCAL_PORT []) = r2
      at h2 ⊢
    cases r1 with
    | error e => simpa using h1
    | ok st =>
      simp only
      split
      · cases r2 with
        | error e => simpa using h2
        | ok port =>
          simp only
          split
          · split
            · simp
            · split <;> simp
          · simp
      · simp

/-- A line on which the loop body returns "no match" can be dropped from the scan. -/
theorem scanLines_skip (P : Nat) (hex line : List Char)
    (hline : checkLine P hex line = .ok false) (before after : List (List Char)) :
    scanLines P hex (before ++ line :: after) = scanLines P hex (before ++ after) := by
  induction before with
  | nil => simp [scanLines, hline]
  | cons l rest ih =>
    simp only [List.cons_append, scanLines]
    have ih' : scanLines P hex (rest.append (line :: after)) =
        scanLines P hex (rest.append after) := ih
    rw [ih']

set_option maxRecDepth 100000 in
/-- No decimal numeral below 256 holds a colon. -/
theorem decimal_no_colon : ∀ n < 256, ∀ c ∈ decimal n, c ≠ ':' := by
  decide

/-- A string with a colon, as every IPv6 literal, is no IPv4 literal. -/
theorem not_isIPv4Literal_of_colon (s : List Char) (h : ':' ∈ s) : ¬ IsIPv4Literal s := by
  rintro ⟨a, b, c, d, ha, hb, hc, hd, rfl⟩
  simp only [dottedQuad, List.mem_append, List.mem_cons] at h
  have hdot : (':' : Char) ≠ '.' := by decide
  rcases h with h | h | h | h | h | h | h
  · exact decimal_no_colon a (by omega) _ h rfl
  · exact hdot h
  · exact decimal_no_colon b (by omega) _ h rfl
  · exact hdot h
  · exact decimal_no_colon c (by omega) _ h rfl
  · exact hdot h
  · exact decimal_no_colon d (by omega) _ h rfl

/-- The suffix `delimiterFreeSuffix` is a suffix of the line, holds no
delimiter, and every suffix of the line without a delimiter is a suffix of it. -/
theorem delimiterFreeSuffix_longest (line delimiters : List Char) :
    delimiterFreeSuffix line delimiters <:+ line ∧
    (∀ c ∈ delimiterFreeSuffix line delimiters, delimiters.contains c = false) ∧
    ∀ s, s <:+ line → (∀ c ∈ s, delimiters.contains c = false) →
      s <:+ delimiterFreeSuffix line delimiters := by
  unfold delimiterFreeSuffix
  generalize hp : (fun c => !delimiters.contains c) = p
  have hpc : ∀ c, p c = !delimiters.contains c := fun c => by rw [← hp]
  refine ⟨List.rtakeWhile_suffix p line, ?_, ?_⟩
  · intro c hc
    have := List.mem_rtakeWhile_imp hc
    rw [hpc] at this
    simpa using this
  · intro s hs hfree
    rcases List.suffix_or_suffix_of_suffix hs (List.rtakeWhile_suffix p line) with h | h
    · exact h
    · obtain ⟨u, hu⟩ := h
      obtain ⟨v, hv⟩ := hs
      have hsplit := rdropWhile_append_rtakeWhile_eq p line
      have hdrop : line.rdropWhile p = v ++ u := by
        have : (v ++ u) ++ line.rtakeWhile p = line.rdropWhile p ++ line.rtakeWhile p := by
          rw [hsplit, List.append_assoc, hu, hv]
        exact (List.append_cancel_right this).symm
      by_cases hunil : u = []
      · subst hunil
        rw [← hu]; simp
      · exfalso
        have hne : line.rdropWhile p ≠ [] := by rw [hdrop]; simp [hunil]
        have hlast := List.rdropWhile_last_not p line hne
        have hmem : (line.rdropWhile p).getLast hne ∈ s := by
          have h1 : (line.rdropWhile p).getLast hne = u.getLast hunil := by
            simp only [hdrop]
            rw [List.getLast_append_of_ne_nil]
          rw [h1, ← hu]
          exact List.mem_append_left _ (List.getLast_mem hunil)
        apply hlast
        rw [hpc, hfree _ hmem]
        rfl

/-! ## The port matcher on well-formed tables -/

/-- Claim C1: for every port `P` in 0..65535 and every table made of a header
line and well-formed rows, `isPortOpen P` without an address returns true
exactly when some row after the header has a state token denoting `0x0A` and
a local-port token denoting `P`; otherwise it returns false. -/
theorem c1_isPortOpen_iff_listening_row (P : Nat) (header : List Char)
    (rows : List (List Char)) (hP : P ≤ 65535) (hrows : ∀ r ∈ rows, WellFormedRow r) :
    (isPortOpen (some (header :: rows)) P [] = .ok true ↔ ∃ r ∈ rows, ListeningOn P r) ∧
    (isPortOpen (some (header :: rows)) P [] = .ok true ∨
      isPortOpen (some (header :: rows)) P [] = .ok false) := by
  have hPU : P < UINT_MAX := by unfold UINT_MAX; omega
  rw [isPortOpen_no_address]
  have hs := scanLines_iff P [] rows
    (fun r hr => (checkLine_wellFormed P hPU [] r (hrows r hr)).2)
  refine ⟨?_, hs.2⟩
  rw [hs.1]
  constructor
  · rintro ⟨r, hr, h⟩
    exact ⟨r, hr, ((checkLine_wellFormed P hPU [] r (hrows r hr)).1.mp h).1⟩
  · rintro ⟨r, hr, h⟩
    exact ⟨r, hr, (checkLine_wellFormed P hPU [] r (hrows r hr)).1.mpr ⟨h, Or.inl rfl⟩⟩

/-- The header followed by the row `1: 0100007F:1F90 00000000:0000 0A`: the
hypotheses of C1 hold, its conclusion holds for port 8080, and the function
returns true for port 8080 and false for port 8081. -/
theorem c1_witness :
    (8080 ≤ 65535 ∧ ∀ r ∈ [sampleRow], WellFormedRow r) ∧
    ((isPortOpen (some [sampleHeader, sampleRow]) 8080 [] = .ok true ↔
        ∃ r ∈ [sampleRow], ListeningOn 8080 r) ∧
      (isPortOpen (some [sampleHeader, sampleRow]) 8080 [] = .ok true ∨
        isPortOpen (some [sampleHeader, sampleRow]) 8080 [] = .ok false)) ∧
    isPortOpen (some [sampleHeader, sampleRow]) 8080 [] = .ok true ∧
    isPortOpen (some [sampleHeader, sampleRow]) 8081 [] = .ok false :=
  ⟨⟨by decide, by decide⟩,
    c1_isPortOpen_iff_listening_row 8080 sampleHeader [sampleRow] (by decide) (by decide),
    rfl, rfl⟩

/-- Claim C2: for every port `P` in 0..65535, every address `A` whose C string
is an IPv4 literal, and every table made of a header line and well-formed
rows, `isPortOpen P A` returns true exactly when some row after the header has
a state token denoting `0x0A`, a local-port token denoting `P`, and a
local-address token equal, as a string, to `ipToHex A`; otherwise it returns
false. -/
theorem c2_isPortOpen_address_iff (P : Nat) (A header : List Char)
    (rows : List (List Char)) (hP : P ≤ 65535) (hA : IsIPv4Literal (c_str A))
    (hrows : ∀ r ∈ rows, WellFormedRow r) :
    (isPortOpen (some (header :: rows)) P A = .ok true ↔
      ∃ r ∈ rows, ListeningOn P r ∧ field r FIELD_LOCAL_IP = ipToHex A) ∧
    (isPortOpen (some (header :: rows)) P A = .ok true ∨
      isPortOpen (some (header :: rows)) P A = .ok false) := by
  have hPU : P < UINT_MAX := by unfold UINT_MAX; omega
  have hhex := ipToHex_ne_nil_of_literal A hA
  rw [isPortOpen_address header rows P A hhex]
  have hs := scanLines_iff P (ipToHex A) rows
    (fun r hr => (checkLine_wellFormed P hPU (ipToHex A) r (hrows r hr)).2)
  refine ⟨?_, hs.2⟩
  rw [hs.1]
  constructor
  · rintro ⟨r, hr, h⟩
    obtain ⟨hl, ha⟩ := (checkLine_wellFormed P hPU (ipToHex A) r (hrows r hr)).1.mp h
    rcases ha with ha | ha
    · exact absurd ha hhex
    · exact ⟨r, hr, hl, ha.symm⟩
  · rintro ⟨r, hr, hl, ha⟩
    exact ⟨r, hr, (checkLine_wellFormed P hPU (ipToHex A) r (hrows r hr)).1.mpr
      ⟨hl, Or.inr ha.symm⟩⟩

/-- The header followed by the row `1: 0100007F:1F90 00000000:0000 0A`: the
hypotheses of C2 hold for port 8080 and address `127.0.0.1`, its conclusion
holds there, and the function returns true for `127.0.0.1` and false for
`10.0.0.1`. -/
theorem c2_witness :
    (8080 ≤ 65535 ∧ IsIPv4Literal (c_str "127.0.0.1".toList) ∧
      ∀ r ∈ [sampleRow], WellFormedRow r) ∧
    ((isPortOpen (some [sampleHeader, sampleRow]) 8080 "127.0.0.1".toList = .ok true ↔
        ∃ r ∈ [sampleRow], ListeningOn 8080 r ∧
          field r FIELD_LOCAL_IP = ipToHex "127.0.0.1".toList) ∧
      (isPortOpen (some [sampleHeader, sampleRow]) 8080 "127.0.0.1".toList = .ok true ∨
        isPortOpen (some [sampleHeader, sampleRow]) 8080 "127.0.0.1".toList = .ok false)) ∧
    isPortOpen (some [sampleHeader, sampleRow]) 8080 "127.0.0.1".toList = .ok true ∧
    isPortOpen (some [sampleHeader, sampleRow]) 8080 "10.0.0.1".toList = .ok false :=
  ⟨⟨by decide, ⟨127, 0, 0, 1, by decide, by decide, by decide, by decide, rfl⟩, by decide⟩,
    c2_isPortOpen_address_iff 8080 "127.0.0.1".toList sampleHeader [sampleRow] (by decide)
      ⟨127, 0, 0, 1, by decide, by decide, by decide, by decide, rfl⟩ (by decide),
    rfl, rfl⟩

/-- Claim C3, the code at the input where it departs from the claim: the row
`1: 0100007f:1F90 00000000:0000 0A` is a listening row for port 8080 whose
local-address token equals `ipToHex "127.0.0.1"` up to letter case, and
`isPortOpen 8080 "127.0.0.1"` returns false on it. -/
theorem c3_lowercase_address_not_matched :
    (field lowercaseRow FIELD_LOCAL_IP).map toupper = ipToHex "127.0.0.1".toList ∧
    ListeningOn 8080 lowercaseRow ∧
    isPortOpen (some [sampleHeader, lowercaseRow]) 8080 "127.0.0.1".toList = .ok false :=
  ⟨rfl, by decide, rfl⟩

/-! ## The tokens of `normalizeLine` -/

/-- Claim C4, the code at the input where it departs from the claim: on the
line `ab cd` with the default delimiters `normalizeLine` returns `ab` and `CD`;
the first token differs from its image under `toupper` and holds lowercase
letters. -/
theorem c4_inner_token_keeps_lowercase :
    normalizeLine "ab cd".toList defaultDelimiters = ["ab".toList, "CD".toList] ∧
    (∃ t ∈ normalizeLine "ab cd".toList defaultDelimiters, t.map toupper ≠ t) ∧
    (∃ t ∈ normalizeLine "ab cd".toList defaultDelimiters, ∃ c ∈ t, islower c = true) :=
  ⟨rfl, by decide, by decide⟩

/-- Claim C5: `normalizeLine` undoes joining. For every delimiter set and every
list of tokens that are non-empty, hold no delimiter and no lowercase letter,
joined with a run of delimiters after each token that is non-empty except
perhaps after the last token, and with a possibly empty run of delimiters in
front, `normalizeLine` returns the tokens in their order. -/
theorem c5_normalizeLine_join (delimiters leading : List Char)
    (segs : List (List Char × List Char))
    (hlead : ∀ c ∈ leading, delimiters.contains c = true)
    (hseg : ∀ p ∈ segs, p.1 ≠ [] ∧
      (∀ c ∈ p.1, delimiters.contains c = false ∧ islower c = false) ∧
      ∀ c ∈ p.2, delimiters.contains c = true)
    (hsep : ∀ p ∈ segs.dropLast, p.2 ≠ []) :
    normalizeLine (leading ++ joinSegments segs) delimiters = segs.map Prod.fst := by
  rw [normalizeLine_eq, normalizeLoop_append, normalizeLoop_delims_nil delimiters leading hlead]
  have := normalizeLoop_join delimiters segs [] hseg hsep
  simpa using this

/-- The line made of two spaces, `1`, `: `, `0100007F`, `:` and `1F90` meets
the hypotheses of C5 and is split into `1`, `0100007F`, `1F90`. -/
theorem c5_witness :
    ((∀ c ∈ "  ".toList, defaultDelimiters.contains c = true) ∧
      (∀ p ∈ [("1".toList, ": ".toList), ("0100007F".toList, ":".toList), ("1F90".toList, [])],
        p.1 ≠ [] ∧ (∀ c ∈ p.1, defaultDelimiters.contains c = false ∧ islower c = false) ∧
          ∀ c ∈ p.2, defaultDelimiters.contains c = true) ∧
      (∀ p ∈ [("1".toList, ": ".toList), ("0100007F".toList, ":".toList),
          ("1F90".toList, ([] : List Char))].dropLast, p.2 ≠ [])) ∧
    normalizeLine ("  ".toList ++ joinSegments
        [("1".toList, ": ".toList), ("0100007F".toList, ":".toList), ("1F90".toList, [])])
      defaultDelimiters
      = [("1".toList, ": ".toList), ("0100007F".toList, ":".toList),
          ("1F90".toList, [])].map Prod.fst :=
  ⟨⟨by decide, by decide, by decide⟩,
    c5_normalizeLine_join defaultDelimiters "  ".toList _ (by decide) (by decide) (by decide)⟩

/-- Claim C6 as amended: for every line and every delimiter set, every token
that `normalizeLine` returns is non-empty; and when no character outside the
delimiter set has its `toupper` image inside it, as for the default set, no
token holds a delimiter. -/
theorem c6_tokens_nonempty_delimiter_free (line delimiters : List Char) :
    (∀ t ∈ normalizeLine line delimiters, t ≠ []) ∧
    ((∀ c, delimiters.contains c = false → delimiters.contains (toupper c) = false) →
      ∀ t ∈ normalizeLine line delimiters, ∀ c ∈ t, delimiters.contains c = false) := by
  refine ⟨normalizeLine_token_ne_nil line delimiters, fun hd t ht => ?_⟩
  have inv := normalizeLoop_invariant delimiters line [] [] (by simp) (by simp)
  rw [normalizeLine_eq] at ht
  split at ht
  · rcases List.mem_append.mp ht with h | h
    · exact (inv.1 t h).2
    · have : t = (normalizeLoop delimiters line [] []).2.map toupper := by simpa using h
      rw [this]
      intro c hc
      obtain ⟨x, hx, rfl⟩ := List.mem_map.mp hc
      exact hd x (inv.2 x hx)
  · exact (inv.1 t ht).2

/-- Claim C6 as stated fails: with the delimiter set `A`, the line `a` yields
the token `A`, which is a delimiter. -/
theorem c6_counterexample :
    normalizeLine ['a'] ['A'] = [['A']] ∧
    ¬ (∀ t ∈ normalizeLine ['a'] ['A'], t ≠ [] ∧ ∀ c ∈ t, ['A'].contains c = false) := by
  constructor
  · rfl
  · decide

/-- The default delimiter set meets the hypothesis of C6, and the tokens of the
header line are non-empty and free of delimiters. -/
theorem c6_witness :
    (∀ c, defaultDelimiters.contains c = false →
        defaultDelimiters.contains (toupper c) = false) ∧
    (∀ t ∈ normalizeLine sampleHeader defaultDelimiters, t ≠ []) ∧
    (∀ t ∈ normalizeLine sampleHeader defaultDelimiters,
      ∀ c ∈ t, defaultDelimiters.contains c = false) :=
  ⟨defaultDelimiters_toupper,
    (c6_tokens_nonempty_delimiter_free sampleHeader defaultDelimiters).1,
    (c6_tokens_nonempty_delimiter_free sampleHeader defaultDelimiters).2
      defaultDelimiters_toupper⟩

/-- Claim C7: for every delimiter set and every line whose last character is
no delimiter, the last token that `normalizeLine` returns is the longest
delimiter-free suffix of the line, uppercased; that suffix is not empty. -/
theorem c7_trailing_token (line delimiters : List Char) (hne : line ≠ [])
    (hlast : delimiters.contains (line.getLast hne) = false) :
    (normalizeLine line delimiters).getLast? =
      some ((delimiterFreeSuffix line delimiters).map toupper) ∧
    delimiterFreeSuffix line delimiters ≠ [] := by
  unfold delimiterFreeSuffix
  generalize hp : (fun c => !delimiters.contains c) = p
  have hpc : ∀ c, p c = !delimiters.contains c := fun c => by rw [← hp]
  have hsplit := rdropWhile_append_rtakeWhile_eq p line
  have hw : ∀ c ∈ line.rtakeWhile p, delimiters.contains c = false := by
    intro c hc
    have := List.mem_rtakeWhile_imp hc
    rw [hpc] at this
    simpa using this
  have hsuf_ne : line.rtakeWhile p ≠ [] := by
    intro h
    have h3 := (List.rtakeWhile_eq_nil_iff.mp h) hne
    exact h3 (by rw [hpc, hlast]; rfl)
  have hcur : (normalizeLoop delimiters (line.rdropWhile p) [] []).2 = [] := by
    by_cases hd : line.rdropWhile p = []
    · rw [hd]; rfl
    · have h3 := List.rdropWhile_last_not p line hd
      have hdl : delimiters.contains ((line.rdropWhile p).getLast hd) = true := by
        rw [hpc] at h3
        simpa using h3
      have e := List.dropLast_append_getLast hd
      rw [← e]
      exact normalizeLoop_snd_nil_of_delim delimiters _ _ hdl [] []
  refine ⟨?_, hsuf_ne⟩
  rw [normalizeLine_eq]
  have hloop : normalizeLoop delimiters line [] [] =
      ((normalizeLoop delimiters (line.rdropWhile p) [] []).1, line.rtakeWhile p) := by
    conv_lhs => rw [← hsplit]
    rw [normalizeLoop_append, normalizeLoop_word delimiters _ hw, hcur]
    simp
  rw [hloop]
  simp [hsuf_ne]

/-- The line `1: 0100007F:1f90` ends in no delimiter; its last token is `1F90`,
the uppercased suffix `1f90`. -/
theorem c7_witness :
    (∃ hne : "1: 0100007F:1f90".toList ≠ [],
      defaultDelimiters.contains ("1: 0100007F:1f90".toList.getLast hne) = false) ∧
    ((normalizeLine "1: 0100007F:1f90".toList defaultDelimiters).getLast? =
        some ((delimiterFreeSuffix "1: 0100007F:1f90".toList defaultDelimiters).map toupper) ∧
      delimiterFreeSuffix "1: 0100007F:1f90".toList defaultDelimiters ≠ []) ∧
    delimiterFreeSuffix "1: 0100007F:1f90".toList defaultDelimiters = "1f90".toList ∧
    (normalizeLine "1: 0100007F:1f90".toList defaultDelimiters).getLast? = some "1F90".toList :=
  ⟨⟨by decide, by decide⟩,
    c7_trailing_token "1: 0100007F:1f90".toList defaultDelimiters (by decide) (by decide),
    by decide, by decide⟩

/-! ## Skipped lines and rejected addresses -/

/-- Claim C8: a line that `normalizeLine` splits into fewer than 6 tokens is
skipped. For every port, address and table, the loop body returns "no match"
on such a line without reading a token; on no line at all does it read a token
index at or beyond the token count; and the result of `isPortOpen` is the
same with the line put anywhere after the header as without it. -/
theorem c8_short_rows_skipped (port : Nat) (targetIp header line : List Char)
    (before after : List (List Char))
    (hshort : (normalizeLine line defaultDelimiters).length < 6) :
    (∀ targetIpHex, checkLine port targetIpHex line = .ok false) ∧
    (∀ targetIpHex l, checkLine port targetIpHex l ≠ .error .outOfRange) ∧
    isPortOpen (some (header :: (before ++ line :: after))) port targetIp =
      isPortOpen (some (header :: (before ++ after))) port targetIp := by
  refine ⟨fun hex => checkLine_short port hex line hshort,
    fun hex l => checkLine_ne_outOfRange port hex l, ?_⟩
  unfold isPortOpen
  simp only [List.drop_succ_cons, List.drop_zero]
  split
  · rfl
  · exact scanLines_skip port _ line (checkLine_short port _ line hshort) before after

/-- The row `2: 0100007F:1F90 00000000:0000` has five tokens; put between two
listening rows it changes nothing. -/
theorem c8_witness :
    (normalizeLine shortRow defaultDelimiters).length < 6 ∧
    ((∀ targetIpHex, checkLine 8080 targetIpHex shortRow = .ok false) ∧
      (∀ targetIpHex l, checkLine 8080 targetIpHex l ≠ .error .outOfRange) ∧
      isPortOpen (some (sampleHeader :: ([sampleRow] ++ shortRow :: [sampleRow]))) 8080
          "127.0.0.1".toList =
        isPortOpen (some (sampleHeader :: ([sampleRow] ++ [sampleRow]))) 8080
          "127.0.0.1".toList) :=
  ⟨by decide,
    c8_short_rows_skipped 8080 "127.0.0.1".toList sampleHeader shortRow [sampleRow] [sampleRow]
      (by decide)⟩

/-- Claim C9: the header line is never matched. For every port, address and
table, the result of `isPortOpen` is the same whatever the first line is; and
the table whose only line is `1: 0100007F:1F90 00000000:0000 0A` yields false
for port 8080. -/
theorem c9_header_never_matched (port : Nat) (targetIp header1 header2 : List Char)
    (rows : List (List Char)) :
    isPortOpen (some (header1 :: rows)) port targetIp =
      isPortOpen (some (header2 :: rows)) port targetIp ∧
    isPortOpen (some [sampleRow]) 8080 [] = .ok false :=
  ⟨rfl, rfl⟩

/-- Claim C10: an address that cannot be parsed is a hard failure. For every
table, openable or not, and every port, when the address is non-empty and its
C string is no IPv4 literal, `ipToHex` returns the empty string and
`isPortOpen` returns false. -/
theorem c10_invalid_address_fails (file : Option (List (List Char))) (port : Nat)
    (A : List Char) (hne : A ≠ []) (hbad : ¬ IsIPv4Literal (c_str A)) :
    ipToHex A = [] ∧ isPortOpen file port A = .ok false := by
  have h := ipToHex_eq_nil_of_not_literal A hbad
  refine ⟨h, ?_⟩
  cases file with
  | none => rfl
  | some lines =>
    unfold isPortOpen
    simp only
    rw [if_pos ⟨hne, h⟩]

/-- The IPv6 literal `::1` is non-empty and no IPv4 literal; with a listening
row for port 8080 in the table, `ipToHex` returns the empty string and
`isPortOpen 8080 "::1"` returns false. -/
theorem c10_witness :
    ("::1".toList ≠ [] ∧ ¬ IsIPv4Literal (c_str "::1".toList)) ∧
    ListeningOn 8080 sampleRow ∧
    ipToHex "::1".toList = [] ∧
    isPortOpen (some [sampleHeader, sampleRow]) 8080 "::1".toList = .ok false :=
  ⟨⟨by decide, not_isIPv4Literal_of_colon _ (by decide)⟩, by decide,
    c10_invalid_address_fails (some [sampleHeader, sampleRow]) 8080 "::1".toList (by decide)
      (not_isIPv4Literal_of_colon _ (by decide))⟩

/-! ## Lemmas on `hexToInt` and the address filter -/

/-- A string of `n` hexadecimal digits denotes a number below `16 ^ n`. -/
theorem foldl_hex_lt (s : List Char) (hs : ∀ c ∈ s, c ∈ hexDigitChars) :
    ∀ (r k : Nat), r < 16 ^ k →
      s.foldl (fun acc c => 16 * acc + hexNumeral c) r < 16 ^ (k + s.length) := by
  induction s with
  | nil => intro r k h; simpa using h
  | cons c rest ih =>
    intro r k h
    obtain ⟨-, hlt, -⟩ := hexDigitValue_of_mem c (hs c (List.mem_cons_self _ _))
    have hrest : ∀ x ∈ rest, x ∈ hexDigitChars := fun x hx => hs x (List.mem_cons_of_mem _ hx)
    simp only [List.foldl_cons, List.length_cons]
    have h2 : 16 * r + hexNumeral c < 16 ^ (k + 1) := by
      rw [pow_succ]; omega
    have := ih hrest (16 * r + hexNumeral c) (k + 1) h2
    have e : k + 1 + rest.length = k + (rest.length + 1) := by omega
    rw [e] at this
    exact this

/-- A hex-digit string of at most 8 digits denotes a number that fits 32 bits. -/
theorem hexValue_le_UINT_MAX (s : List Char) (hs : ∀ c ∈ s, c ∈ hexDigitChars)
    (hlen : s.length ≤ 8) : hexValue s ≤ UINT_MAX := by
  have h := foldl_hex_lt s hs 0 0 (by norm_num)
  have h2 : (16 : Nat) ^ (0 + s.length) ≤ 16 ^ 8 := Nat.pow_le_pow_right (by norm_num) (by omega)
  have h3 : (16 : Nat) ^ 8 = 4294967296 := by norm_num
  unfold hexValue UINT_MAX
  omega

/-- The loop body without an address filter matches whenever it matches with one, and
faults only when it faults with one. -/
theorem checkLine_no_filter (P : Nat) (hex line : List Char) :
    (checkLine P hex line = .ok true → checkLine P [] line = .ok true) ∧
    (checkLine P hex line = .ok false →
      checkLine P [] line = .ok true ∨ checkLine P [] line = .ok false) := by
  unfold checkLine
  simp only
  split
  · simp
  · split
    · simp
    · split
      · simp
      · split
        · simp
        · split
          · simp
          · split
            · simp
            · split
              · split
                · simp
                · split
                  · simp
                  · simp
              · simp

/-- A scan that finds a match with an address filter finds one without. -/
theorem scanLines_no_filter (P : Nat) (hex : List Char) (rows : List (List Char))
    (h : scanLines P hex rows = .ok true) : scanLines P [] rows = .ok true := by
  induction rows with
  | nil => simp [scanLines] at h
  | cons r rest ih =>
    have hc := checkLine_no_filter P hex r
    simp only [scanLines] at h ⊢
    cases hr : checkLine P hex r with
    | error e => rw [hr] at h; simp at h
    | ok b =>
      rw [hr] at h
      cases b with
      | true => rw [hc.1 hr]
      | false =>
        simp only at h
        rcases hc.2 hr with h1 | h1
        · rw [h1]
        · rw [h1]; exact ih h

/-! ## Lemmas on the formatted address -/

/-- There are `k` of the `k` low digits. -/
theorem nibbles_length (k : Nat) : ∀ v, (nibbles k v).length = k := by
  induction k with
  | zero => intro v; rfl
  | succ k ih => intro v; simp [nibbles, ih]

/-- The low digits of 0 are zeros. -/
theorem nibbles_zero (k : Nat) : nibbles k 0 = List.replicate k '0' := by
  induction k with
  | zero => rfl
  | succ k ih =>
    simp only [nibbles, Nat.zero_div, Nat.zero_mod, ih]
    have : hexDigitUpper 0 = '0' := rfl
    rw [this, ← List.replicate_succ']

/-- The digits `hexDigitsUpper` produces, padded with zeros to `k`, are the `k` low digits. -/
theorem hexDigitsUpper_nibbles (k : Nat) : ∀ (v : Nat) (acc : List Char), v < 16 ^ k →
    ∃ l, hexDigitsUpper k v acc = l ++ acc ∧ l.length ≤ k ∧
      List.replicate (k - l.length) '0' ++ l = nibbles k v := by
  induction k with
  | zero =>
    intro v acc hv
    exact ⟨[], rfl, Nat.le_refl _, rfl⟩
  | succ k ih =>
    intro v acc hv
    simp only [hexDigitsUpper]
    by_cases hz : v / 16 = 0
    · rw [if_pos hz]
      refine ⟨[hexDigitUpper (v % 16)], rfl, by simp, ?_⟩
      simp [nibbles, hz, nibbles_zero]
    · rw [if_neg hz]
      have hv2 : v / 16 < 16 ^ k := by
        rw [pow_succ] at hv
        omega
      obtain ⟨l, hl, hlen, hpad⟩ := ih (v / 16) (hexDigitUpper (v % 16) :: acc) hv2
      refine ⟨l ++ [hexDigitUpper (v % 16)], by rw [hl]; simp, by simp; omega, ?_⟩
      simp only [nibbles, ← hpad, List.length_append, List.length_singleton]
      have : k + 1 - (l.length + 1) = k - l.length := by omega
      rw [this]
      simp

/-- The formatted value is the 8 low hexadecimal digits of the value. -/
theorem formatHex8_eq_nibbles (v : Nat) : formatHex8 v = nibbles 8 (v % 2 ^ 32) := by
  have hv : v % 2 ^ 32 < 16 ^ 8 := by
    have : (16 : Nat) ^ 8 = 2 ^ 32 := by norm_num
    rw [this]
    exact Nat.mod_lt _ (by norm_num)
  obtain ⟨l, hl, -, hpad⟩ := hexDigitsUpper_nibbles 8 (v % 2 ^ 32) [] hv
  unfold formatHex8
  simp only
  rw [hl, List.append_nil]
  exact hpad

/-- The digit `hexDigitUpper k` is entry `k` of `0123456789ABCDEF` and denotes `k`. -/
theorem hexDigitUpper_eq : ∀ k < 16,
    hexDigitUpper k = upperHexDigits.getD k '0' ∧ hexNumeral (hexDigitUpper k) = k := by
  decide

/-- The two low digits of a byte are its numeral. -/
theorem nibbles_two (n : Nat) (h : n ≤ 255) : nibbles 2 n = hexByte n := by
  have h1 := (hexDigitUpper_eq (n / 16) (by omega)).1
  have h2 := (hexDigitUpper_eq (n % 16) (by omega)).1
  have h3 : n / 16 % 16 = n / 16 := by omega
  simp [nibbles, hexByte, h1, h2, h3]

/-- The low digits of `hi * 16 ^ j + lo` are those of `hi` followed by the `j` of `lo`. -/
theorem nibbles_add (j : Nat) : ∀ (k hi lo : Nat), lo < 16 ^ j →
    nibbles (k + j) (hi * 16 ^ j + lo) = nibbles k hi ++ nibbles j lo := by
  induction j with
  | zero =>
    intro k hi lo h
    have : lo = 0 := by simpa using h
    subst this
    simp [nibbles]
  | succ j ih =>
    intro k hi lo h
    have hm : hi * 16 ^ (j + 1) = 16 * (hi * 16 ^ j) := by
      rw [pow_succ]; ring
    have e1 : (hi * 16 ^ (j + 1) + lo) / 16 = hi * 16 ^ j + lo / 16 := by
      rw [hm]
      generalize hi * 16 ^ j = m
      omega
    have e2 : (hi * 16 ^ (j + 1) + lo) % 16 = lo % 16 := by
      rw [hm]
      generalize hi * 16 ^ j = m
      omega
    have h2 : lo / 16 < 16 ^ j := by
      rw [pow_succ] at h
      omega
    have : k + (j + 1) = (k + j) + 1 := by omega
    rw [this]
    simp only [nibbles, e1, e2]
    rw [ih k hi (lo / 16) h2]
    simp

/-- The formatted address: the numerals of the four bytes, last byte first. -/
theorem formatHex8_s_addr (a b c d : Nat) (ha : a ≤ 255) (hb : b ≤ 255) (hc : c ≤ 255)
    (hd : d ≤ 255) :
    formatHex8 (s_addr [a, b, c, d]) = hexByte d ++ hexByte c ++ hexByte b ++ hexByte a := by
  rw [formatHex8_eq_nibbles]
  have hs : s_addr [a, b, c, d] = ((d * 16 ^ 2 + c) * 16 ^ 2 + b) * 16 ^ 2 + a := by
    simp only [s_addr, List.foldr]
    norm_num
    ring
  have hmod : s_addr [a, b, c, d] % 2 ^ 32 = s_addr [a, b, c, d] := by
    apply Nat.mod_eq_of_lt
    rw [hs]
    norm_num
    omega
  rw [hmod, hs]
  have h16 : (16 : Nat) ^ 2 = 256 := by norm_num
  rw [show (8 : Nat) = 6 + 2 from rfl, nibbles_add 2 6 _ a (by omega),
    show (6 : Nat) = 4 + 2 from rfl, nibbles_add 2 4 _ b (by omega),
    show (4 : Nat) = 2 + 2 from rfl, nibbles_add 2 2 _ c (by omega),
    nibbles_two a ha, nibbles_two b hb, nibbles_two c hc, nibbles_two d hd]

set_option maxRecDepth 100000 in
/-- No decimal numeral below 256 holds a NUL. -/
theorem decimal_no_nul : ∀ n < 256, ∀ c ∈ decimal n, c.toNat ≠ 0 := by
  decide

/-- A dotted quad is its own C string. -/
theorem c_str_dottedQuad (a b c d : Nat) (ha : a ≤ 255) (hb : b ≤ 255) (hc : c ≤ 255)
    (hd : d ≤ 255) : c_str (dottedQuad a b c d) = dottedQuad a b c d := by
  unfold c_str
  rw [List.takeWhile_eq_self_iff]
  intro x hx
  simp only [dottedQuad, List.mem_append, List.mem_cons] at hx
  have hdot : ('.' : Char).toNat ≠ 0 := by decide
  simp only [decide_eq_true_eq]
  rcases hx with h | h | h | h | h | h | h
  · exact decimal_no_nul a (by omega) x h
  · rw [h]; exact hdot
  · exact decimal_no_nul b (by omega) x h
  · rw [h]; exact hdot
  · exact decimal_no_nul c (by omega) x h
  · rw [h]; exact hdot
  · exact decimal_no_nul d (by omega) x h

/-- On a dotted quad `ipToHex` formats the value of the four bytes. -/
theorem ipToHex_dottedQuad (a b c d : Nat) (ha : a ≤ 255) (hb : b ≤ 255) (hc : c ≤ 255)
    (hd : d ≤ 255) :
    ipToHex (dottedQuad a b c d) = formatHex8 (s_addr [a, b, c, d]) := by
  have hne : dottedQuad a b c d ≠ [] := by
    simp [dottedQuad]
  unfold ipToHex
  rw [if_neg hne, c_str_dottedQuad a b c d ha hb hc hd, inet_pton4_dottedQuad a b c d ha hb hc hd]

/-- Entry `k` of `0123456789ABCDEF` is an uppercase hexadecimal digit that denotes `k`. -/
theorem upperHexDigits_getD : ∀ k < 16,
    upperHexDigits.getD k '0' ∈ upperHexDigits ∧ hexNumeral (upperHexDigits.getD k '0') = k := by
  decide

/-- Reading the numeral of a byte multiplies by 256 and adds the byte. -/
theorem hexValue_hexByte_append (n : Nat) (h : n ≤ 255) (rest : List Char) (r : Nat) :
    (hexByte n ++ rest).foldl (fun acc c => 16 * acc + hexNumeral c) r =
      rest.foldl (fun acc c => 16 * acc + hexNumeral c) (256 * r + n) := by
  have h1 := (upperHexDigits_getD (n / 16) (by omega)).2
  have h2 := (upperHexDigits_getD (n % 16) (by omega)).2
  simp only [hexByte, List.cons_append, List.nil_append, List.foldl_cons, h1, h2]
  congr 1
  omega

/-- The numeral of a byte is made of uppercase hexadecimal digits. -/
theorem mem_hexByte (n : Nat) (h : n ≤ 255) : ∀ ch ∈ hexByte n, ch ∈ upperHexDigits := by
  intro ch hch
  simp only [hexByte, List.mem_cons, List.mem_singleton, List.not_mem_nil, or_false] at hch
  rcases hch with h1 | h1
  · rw [h1]; exact (upperHexDigits_getD _ (by omega)).1
  · rw [h1]; exact (upperHexDigits_getD _ (by omega)).1

/-! ## Lemmas on undecodable tokens -/

/-- Only the 22 hexadecimal digits have a digit value. -/
theorem hexDigitValue_eq_none (c : Char) (h : c ∉ hexDigitChars) : hexDigitValue c = none := by
  by_contra hne
  apply h
  have hc : c = Char.ofNat c.toNat := (Char.ofNat_toNat c).symm
  unfold hexDigitValue at hne
  by_cases h1 : 48 ≤ c.toNat ∧ c.toNat ≤ 57
  · obtain ⟨ha, hb⟩ := h1
    rw [hc]
    generalize c.toNat = n at ha hb
    interval_cases n <;> decide
  · by_cases h2 : 97 ≤ c.toNat ∧ c.toNat ≤ 102
    · obtain ⟨ha, hb⟩ := h2
      rw [hc]
      generalize c.toNat = n at ha hb
      interval_cases n <;> decide
    · by_cases h3 : 65 ≤ c.toNat ∧ c.toNat ≤ 70
      · obtain ⟨ha, hb⟩ := h3
        rw [hc]
        generalize c.toNat = n at ha hb
        interval_cases n <;> decide
      · rw [if_neg h1, if_neg h2, if_neg h3] at hne
        exact absurd rfl hne

/-- The sign step of the extraction leaves `afterSign`. -/
theorem extractSign_dropWhile (t : List Char) :
    (extractSign (t.dropWhile isspace)).2 = afterSign t := by
  unfold afterSign extractSign
  cases t.dropWhile isspace with
  | nil => rfl
  | cons c rest =>
    simp only
    by_cases hm : c = '-'
    · simp [hm]
    · by_cases hp : c = '+'
      · simp [hp]
      · simp [hm, hp]

/-- The digit loop reads the leading run of hexadecimal digits only. -/
theorem extractDigits_takeWhile (s : List Char) : ∀ (r : Nat) (ov : Bool) (cnt : Nat),
    extractDigits s r ov cnt =
      extractDigits (s.takeWhile (fun c => decide (c ∈ hexDigitChars))) r ov cnt := by
  induction s with
  | nil => intro r ov cnt; rfl
  | cons c rest ih =>
    intro r ov cnt
    by_cases hc : c ∈ hexDigitChars
    · have hv := (hexDigitValue_of_mem c hc).1
      rw [List.takeWhile_cons_of_pos (by simpa using hc)]
      simp only [extractDigits, hv]
      rw [ih, ih _ _ (cnt + 1)]
    · rw [List.takeWhile_cons_of_neg (by simpa using hc)]
      simp only [extractDigits, hexDigitValue_eq_none c hc]

/-- The digit loop on a text, told by its leading run of hexadecimal digits:
without a digit it reads nothing, and a run that denotes more than `UINT_MAX`
sets the overflow flag. -/
theorem extractDigits_leading (s : List Char) :
    (s.takeWhile (fun c => decide (c ∈ hexDigitChars)) = [] →
      extractDigits s 0 false 0 = (0, false, 0)) ∧
    (UINT_MAX < hexValue (s.takeWhile (fun c => decide (c ∈ hexDigitChars))) →
      (extractDigits s 0 false 0).2.1 = true ∧ (extractDigits s 0 false 0).2.2 ≠ 0) := by
  rw [extractDigits_takeWhile s 0 false 0]
  have hall : ∀ c ∈ s.takeWhile (fun c => decide (c ∈ hexDigitChars)), c ∈ hexDigitChars := by
    intro c hc
    simpa using List.mem_takeWhile_imp hc
  generalize s.takeWhile (fun c => decide (c ∈ hexDigitChars)) = d at hall
  have key := extractDigits_hexValue d hall
  refine ⟨fun h => by rw [h]; rfl, fun h => ⟨key.2.1 h, key.2.2 ?_⟩⟩
  intro e
  rw [e] at h
  exact absurd h (by decide)

/-- The prefix step and the digit loop, told by the hexadecimal digits that
follow the optional prefix `0x`: without a digit no zero is taken and no digit
read, and digits that denote more than `UINT_MAX` set the overflow flag. -/
theorem extractZeroX_leading (s : List Char) :
    ((afterZeroX s).takeWhile (fun c => decide (c ∈ hexDigitChars)) = [] →
      (extractDigits (extractZeroX s).2 0 false 0).2.2 = 0 ∧ (extractZeroX s).1 = false) ∧
    (UINT_MAX < hexValue ((afterZeroX s).takeWhile (fun c => decide (c ∈ hexDigitChars))) →
      (extractDigits (extractZeroX s).2 0 false 0).2.1 = true ∧
        ¬ ((extractDigits (extractZeroX s).2 0 false 0).2.2 = 0 ∧ (extractZeroX s).1 = false)) := by
  have h0 : ('0' : Char) ∈ hexDigitChars := by decide
  have plain : ∀ u : List Char, extractZeroX s = (false, u) → afterZeroX s = u →
      ((afterZeroX s).takeWhile (fun c => decide (c ∈ hexDigitChars)) = [] →
        (extractDigits (extractZeroX s).2 0 false 0).2.2 = 0 ∧ (extractZeroX s).1 = false) ∧
      (UINT_MAX < hexValue ((afterZeroX s).takeWhile (fun c => decide (c ∈ hexDigitChars))) →
        (extractDigits (extractZeroX s).2 0 false 0).2.1 = true ∧
          ¬ ((extractDigits (extractZeroX s).2 0 false 0).2.2 = 0 ∧
            (extractZeroX s).1 = false)) := by
    intro u h1 h2
    rw [h1, h2]
    have key := extractDigits_leading u
    refine ⟨fun h => ?_, fun h => ?_⟩
    · rw [key.1 h]; exact ⟨rfl, rfl⟩
    · exact ⟨(key.2 h).1, fun hn => (key.2 h).2 hn.1⟩
  cases s with
  | nil => exact plain [] rfl rfl
  | cons c rest =>
    by_cases hz : c = '0'
    · subst hz
      cases rest with
      | nil =>
        refine ⟨fun h => ?_, fun h => ?_⟩
        · exact absurd h (by decide)
        · exact absurd h (by decide)
      | cons x r =>
        by_cases hx : x = 'x' ∨ x = 'X'
        · apply plain r
          · simp only [extractZeroX, if_true, if_pos hx]
          · simp only [afterZeroX, true_and, if_pos hx]
        · have ha : afterZeroX ('0' :: x :: r) = '0' :: x :: r := by
            simp only [afterZeroX, true_and, if_neg hx]
          have he : extractZeroX ('0' :: x :: r) = (true, x :: r) := by
            simp only [extractZeroX, if_true, if_neg hx]
          rw [ha, he, List.takeWhile_cons_of_pos (by simpa using h0), hexValue_zero_cons]
          have key := extractDigits_leading (x :: r)
          refine ⟨fun h => absurd h (by simp), fun h => ⟨(key.2 h).1, fun hn => ?_⟩⟩
          exact absurd hn.2 (by simp)
    · apply plain (c :: rest)
      · simp only [extractZeroX, if_neg hz]
      · cases rest with
        | nil => rfl
        | cons x r => simp only [afterZeroX, hz, false_and, if_false]

/-- A token that is not blank has something left after its white space. -/
theorem dropWhile_ne_nil_of_notBlank (t : List Char) (hb : NotBlank t) :
    t.dropWhile isspace ≠ [] := by
  obtain ⟨c, hc, hsp⟩ := hb
  intro e
  rw [List.dropWhile_eq_nil_iff] at e
  have := e c hc
  rw [hsp] at this
  exact absurd this (by decide)

/-- For a token without a number `hexToInt` yields 0. -/
theorem hexToInt_noNumber (t : List Char) (h : NoNumber t) : hexToInt t = .ok 0 := by
  obtain ⟨hb, hd⟩ := h
  have hsg := extractSign_dropWhile t
  have hne := dropWhile_ne_nil_of_notBlank t hb
  unfold leadingHexDigits at hd
  unfold hexToInt
  generalize t.dropWhile isspace = s at hsg hne
  cases s with
  | nil => exact absurd rfl hne
  | cons c rest =>
    simp only
    rw [hsg]
    rw [if_pos ((extractZeroX_leading _).1 hd)]

/-- For a token whose number does not fit 32 bits `hexToInt` yields `UINT_MAX`. -/
theorem hexToInt_tooLarge (t : List Char) (h : TooLarge t) : hexToInt t = .ok UINT_MAX := by
  have hsg := extractSign_dropWhile t
  have hne : t.dropWhile isspace ≠ [] := by
    intro e
    have ha : afterSign t = [] := by
      unfold afterSign
      rw [e]
    unfold TooLarge leadingHexDigits at h
    rw [ha] at h
    exact absurd h (by decide)
  unfold TooLarge leadingHexDigits at h
  unfold hexToInt
  generalize t.dropWhile isspace = s at hsg hne
  cases s with
  | nil => exact absurd rfl hne
  | cons c rest =>
    simp only
    rw [hsg]
    have key := (extractZeroX_leading _).2 h
    rw [if_neg key.2, if_pos key.1]

/-- A token without any hexadecimal digit that is not blank holds no number. -/
theorem noNumber_of_noHexDigit (t : List Char) (hd : NoHexDigit t) (hb : NotBlank t) :
    NoNumber t := by
  refine ⟨hb, ?_⟩
  have hsub1 : ∀ c ∈ afterSign t, c ∉ hexDigitChars := by
    intro c hc
    apply hd
    unfold afterSign at hc
    have hs := (List.dropWhile_sublist isspace (l := t)).subset
    cases hdw : t.dropWhile isspace with
    | nil => rw [hdw] at hc; simp at hc
    | cons a rest =>
      rw [hdw] at hc hs
      simp only at hc
      split at hc
      · exact hs (List.mem_cons_of_mem _ hc)
      · exact hs hc
  have hsub2 : ∀ c ∈ afterZeroX (afterSign t), c ∉ hexDigitChars := by
    intro c hc
    apply hsub1
    generalize afterSign t = s at hc
    unfold afterZeroX at hc
    split at hc
    · split at hc
      · exact List.mem_cons_of_mem _ (List.mem_cons_of_mem _ hc)
      · exact hc
    · exact hc
  unfold leadingHexDigits
  generalize afterZeroX (afterSign t) = s at hsub2
  cases s with
  | nil => rfl
  | cons c rest =>
    exact List.takeWhile_cons_of_neg (by simpa using hsub2 c (List.mem_cons_self _ _))

/-- A token that is not blank is decoded without fault. -/
theorem hexToInt_ok_of_notBlank (t : List Char) (hb : NotBlank t) :
    ∃ v, hexToInt t = .ok v := by
  unfold hexToInt
  have hne : t.dropWhile isspace ≠ [] := by
    obtain ⟨c, hc, hsp⟩ := hb
    intro e
    rw [List.dropWhile_eq_nil_iff] at e
    have := e c hc
    rw [hsp] at this
    exact absurd this (by decide)
  generalize t.dropWhile isspace = s at hne
  cases s with
  | nil => exact absurd rfl hne
  | cons c rest =>
    simp only
    split
    · exact ⟨_, rfl⟩
    · split
      · exact ⟨_, rfl⟩
      · split
        · exact ⟨_, rfl⟩
        · exact ⟨_, rfl⟩

/-- A row whose state token is undecodable is no match. -/
theorem checkLine_undecodableState (P : Nat) (hex line : List Char)
    (h : UndecodableState line) : checkLine P hex line = .ok false := by
  by_cases hlen : (normalizeLine line defaultDelimiters).length < 6
  · exact checkLine_short P hex line hlen
  · unfold checkLine
    simp only
    rw [if_neg (by unfold FIELD_STATE; omega)]
    rw [fieldAt_of_lt _ FIELD_SL (by unfold FIELD_SL; omega),
      fieldAt_of_lt _ FIELD_LOCAL_IP (by unfold FIELD_LOCAL_IP; omega),
      fieldAt_of_lt _ FIELD_LOCAL_PORT (by unfold FIELD_LOCAL_PORT; omega),
      fieldAt_of_lt _ FIELD_STATE (by unfold FIELD_STATE; omega)]
    simp only
    unfold UndecodableState field at h
    rcases h with h | h
    · rw [hexToInt_noNumber _ h]
      simp [STATE_LISTENING]
    · rw [hexToInt_tooLarge _ h]
      simp [STATE_LISTENING, UINT_MAX]

/-- A row whose local-port token is undecodable is no match for a target port
other than the value `hexToInt` yields for the token. -/
theorem checkLine_undecodablePortFor (P : Nat) (hex line : List Char)
    (h : UndecodablePortFor P line) : checkLine P hex line = .ok false := by
  by_cases hlen : (normalizeLine line defaultDelimiters).length < 6
  · exact checkLine_short P hex line hlen
  · obtain ⟨hsb, hp⟩ := h
    unfold checkLine
    simp only
    rw [if_neg (by unfold FIELD_STATE; omega)]
    rw [fieldAt_of_lt _ FIELD_SL (by unfold FIELD_SL; omega),
      fieldAt_of_lt _ FIELD_LOCAL_IP (by unfold FIELD_LOCAL_IP; omega),
      fieldAt_of_lt _ FIELD_LOCAL_PORT (by unfold FIELD_LOCAL_PORT; omega),
      fieldAt_of_lt _ FIELD_STATE (by unfold FIELD_STATE; omega)]
    simp only
    unfold field at hsb hp
    obtain ⟨st, hst⟩ := hexToInt_ok_of_notBlank _ hsb
    rw [hst]
    simp only
    split
    · rcases hp with ⟨hp, hP⟩ | ⟨hp, hP⟩
      · rw [hexToInt_noNumber _ hp]
        simp only
        rw [if_neg (fun e => hP e.symm)]
      · rw [hexToInt_tooLarge _ hp]
        simp only
        rw [if_neg (fun e => hP e.symm)]
    · rfl

/-- Lines on which the loop body returns "no match" can be filtered out of the scan. -/
theorem scanLines_filter (P : Nat) (hex : List Char) (keep : List Char → Bool)
    (hdrop : ∀ l, keep l = false → checkLine P hex l = .ok false) (rows : List (List Char)) :
    scanLines P hex (rows.filter keep) = scanLines P hex rows := by
  induction rows with
  | nil => rfl
  | cons r rest ih =>
    by_cases hk : keep r = true
    · rw [List.filter_cons_of_pos hk]
      simp only [scanLines, ih]
    · have hk' : keep r = false := by simpa using hk
      rw [List.filter_cons_of_neg hk]
      simp only [scanLines, hdrop r hk', ih]

/-! ## Lemmas on `main` -/

/-- The slot right after `pre`. -/
theorem getD_append_length (pre : List (List Char)) (x : List Char) (post : List (List Char)) :
    (pre ++ x :: post).getD pre.length [] = x := by
  induction pre with
  | nil => rfl
  | cons a pre ih => simpa using ih

/-- Writing the slot right after `pre`. -/
theorem set_append_length (pre : List (List Char)) (x y : List Char)
    (post : List (List Char)) :
    (pre ++ x :: post).set pre.length y = pre ++ y :: post := by
  induction pre with
  | nil => rfl
  | cons a pre ih => simp [ih]

/-- The shifting loop started at the slot of `m` moves what follows one slot
down and leaves the last slot as it was. -/
theorem shiftArgs_spec (mid : List (List Char)) :
    ∀ (pre : List (List Char)) (m : List Char) (post : List (List Char)),
      ∃ x, shiftArgs mid.length (pre ++ m :: (mid ++ post)) pre.length
        = pre ++ (mid ++ x :: post) := by
  induction mid with
  | nil => intro pre m post; exact ⟨m, by simp [shiftArgs]⟩
  | cons y rest ih =>
    intro pre m post
    obtain ⟨x, hx⟩ := ih (pre ++ [y]) y post
    refine ⟨x, ?_⟩
    simp only [List.length_cons, shiftArgs, List.cons_append]
    have hget : (pre ++ m :: y :: (rest ++ post)).getD (pre.length + 1) [] = y := by
      have := getD_append_length (pre ++ [m]) y (rest ++ post)
      simpa using this
    rw [hget, set_append_length]
    have e1 : pre ++ y :: y :: (rest ++ post) = (pre ++ [y]) ++ y :: (rest ++ post) := by simp
    have e2 : pre.length + 1 = (pre ++ [y]).length := by simp
    rw [e1, e2, hx]
    simp

/-- The flag-stripping loop: from slot `pre.length` on, with `mid` the
arguments not yet looked at, it leaves the arguments of `mid` that are no
flags right after `pre`, lowers `argc` by the number of flags, and sets each
flag variable whose flag occurs in `mid`. -/
theorem stripFlags_spec (mid : List (List Char)) :
    ∀ (pre post : List (List Char)) (log : LogFlags) (passes : Nat), mid.length ≤ passes →
      ∃ post', stripFlags passes (pre ++ (mid ++ post)) (pre.length + mid.length) pre.length log =
        (pre ++ (positionals mid ++ post'), pre.length + (positionals mid).length,
          LogFlags.mk (log.logDebugEnabled || decide (debugFlag ∈ mid))
            (log.logQuietEnabled || decide (quietFlag ∈ mid))) := by
  induction mid with
  | nil =>
    intro pre post log passes _
    refine ⟨post, ?_⟩
    cases passes with
    | zero => simp [stripFlags, positionals]
    | succ n => simp [stripFlags, positionals]
  | cons m rest ih =>
    intro pre post log passes hp
    cases passes with
    | zero => simp at hp
    | succ n =>
      have hn : rest.length ≤ n := by simpa using hp
      have hi : pre.length < pre.length + (rest.length + 1) := by omega
      have hcount : pre.length + (rest.length + 1) - 1 - pre.length = rest.length := by omega
      have hargc : pre.length + (rest.length + 1) - 1 = pre.length + rest.length := by omega
      simp only [stripFlags, List.length_cons, List.cons_append, if_pos hi, getD_append_length,
        hcount, hargc, Nat.add_sub_cancel_left]
      by_cases hd : m = debugFlag
      · rw [if_pos hd]
        obtain ⟨x, hx⟩ := shiftArgs_spec rest pre m post
        rw [hx]
        obtain ⟨post', h'⟩ := ih pre (x :: post) (LogFlags.mk true log.logQuietEnabled) n hn
        refine ⟨post', ?_⟩
        rw [h']
        have hq : quietFlag ≠ debugFlag := by decide
        simp [positionals, hd, hq]
      · rw [if_neg hd]
        by_cases hq : m = quietFlag
        · rw [if_pos hq]
          obtain ⟨x, hx⟩ := shiftArgs_spec rest pre m post
          rw [hx]
          obtain ⟨post', h'⟩ := ih pre (x :: post) (LogFlags.mk log.logDebugEnabled true) n hn
          refine ⟨post', ?_⟩
          rw [h']
          have hdq : debugFlag ≠ quietFlag := by decide
          simp [positionals, hq, hdq]
        · rw [if_neg hq]
          have e1 : pre ++ m :: (rest ++ post) = (pre ++ [m]) ++ (rest ++ post) := by simp
          have e2 : pre.length + (rest.length + 1) = (pre ++ [m]).length + rest.length := by
            simp; omega
          have e3 : pre.length + 1 = (pre ++ [m]).length := by simp
          rw [e1, e2, e3]
          obtain ⟨post', h'⟩ := ih (pre ++ [m]) post log n hn
          refine ⟨post', ?_⟩
          rw [h']
          have hd' : debugFlag ≠ m := fun e => hd e.symm
          have hq' : quietFlag ≠ m := fun e => hq e.symm
          simp [positionals, hd, hq, hd', hq']
          omega

/-- The loop body with its effects returns what `checkLine` returns. -/
theorem checkLineRun_snd (log : LogFlags) (P : Nat) (hex line : List Char) :
    (checkLineRun log P hex line).2 = checkLine P hex line := by
  unfold checkLineRun checkLine
  simp only
  by_cases hlen : (normalizeLine line defaultDelimiters).length ≤ FIELD_STATE
  · rw [if_pos hlen, if_pos hlen]
  · rw [if_neg hlen, if_neg hlen]
    generalize fieldAt (normalizeLine line defaultDelimiters) FIELD_SL = f0
    generalize fieldAt (normalizeLine line defaultDelimiters) FIELD_LOCAL_IP = f1
    generalize fieldAt (normalizeLine line defaultDelimiters) FIELD_LOCAL_PORT = f2
    generalize fieldAt (normalizeLine line defaultDelimiters) FIELD_STATE = f5
    cases f0 with
    | error e => rfl
    | ok sl =>
    cases f1 with
    | error e => rfl
    | ok la =>
    cases f2 with
    | error e => rfl
    | ok lp =>
    cases f5 with
    | error e => rfl
    | ok state =>
    simp only
    cases hexToInt state with
    | error e => rfl
    | ok st =>
    simp only
    by_cases h10 : st = STATE_LISTENING
    · rw [if_pos h10, if_pos h10]
      cases hexToInt lp with
      | error e => rfl
      | ok port =>
      simp only
      by_cases hp : port = P
      · rw [if_pos hp, if_pos hp]
        by_cases he : hex = []
        · rw [if_pos he, if_pos he]
        · rw [if_neg he, if_neg he]
          by_cases ha : hex = la
          · rw [if_pos ha, if_pos ha]
          · rw [if_neg ha, if_neg ha]
      · rw [if_neg hp, if_neg hp]
    · rw [if_neg h10, if_neg h10]

/-- The scan with its effects returns what `scanLines` returns. -/
theorem scanLinesRun_snd (log : LogFlags) (P : Nat) (hex : List Char)
    (rows : List (List Char)) :
    (scanLinesRun log P hex rows).2 = scanLines P hex rows := by
  induction rows with
  | nil => rfl
  | cons r rest ih =>
    have h := checkLineRun_snd log P hex r
    simp only [scanLinesRun, scanLines]
    rw [← h]
    generalize checkLineRun log P hex r = res
    obtain ⟨out, v⟩ := res
    cases v with
    | error e => rfl
    | ok b =>
      cases b with
      | true => rfl
      | false => simpa using ih

/-- The function `isPortOpen` with its effects returns what `isPortOpen` returns. -/
theorem isPortOpenRun_snd (log : LogFlags) (file : Option (List (List Char))) (P : Nat)
    (A : List Char) : (isPortOpenRun log file P A).2 = isPortOpen file P A := by
  cases file with
  | none => rfl
  | some lines =>
    unfold isPortOpenRun isPortOpen
    simp only
    split
    · rfl
    · exact scanLinesRun_snd log P _ _

/-- What `main` reads off `argv`: the flags are set exactly when they occur,
and when an argument that is no flag exists, `argv[1]` is the first such
argument and `targetIp` the second one, or empty. -/
theorem parseArguments_spec (argv0 : List Char) (args : List (List Char)) :
    (parseArguments argv0 args).2.2 =
        LogFlags.mk (decide (debugFlag ∈ args)) (decide (quietFlag ∈ args)) ∧
    ∀ p rest, positionals args = p :: rest →
      (parseArguments argv0 args).1 = p ∧ (parseArguments argv0 args).2.1 = rest.headD [] := by
  obtain ⟨post', h⟩ := stripFlags_spec args [argv0] [] (LogFlags.mk false false)
    (argv0 :: args).length (by simp)
  have e : [argv0] ++ (args ++ []) = argv0 :: args := by simp
  have e2 : [argv0].length + args.length = (argv0 :: args).length := by simp; omega
  have e3 : [argv0].length = 1 := rfl
  rw [e, e2, e3] at h
  unfold parseArguments
  simp only
  rw [h]
  refine ⟨by simp, ?_⟩
  intro p rest hp
  rw [hp]
  cases rest with
  | nil => simp
  | cons a rest' =>
    simp
    intro hlt
    omega

/-- Outside 1 to 4 arguments `main` prints the usage text and returns `BAD_INPUT`. -/
theorem main_usage (argv0 : List Char) (args : List (List Char))
    (file : Option (List (List Char))) (h : args.length = 0 ∨ 4 < args.length) :
    main argv0 args file =
      (((usageLines (filename argv0)).map (info (LogFlags.mk false false))).flatten,
        .ok BAD_INPUT) := by
  unfold main
  simp only
  rw [if_pos (by simp only [List.length_cons]; omega)]

/-- With 1 to 4 arguments the exit code of `main` is `exitCodeOf` at what it
reads off `argv`. -/
theorem main_snd (argv0 : List Char) (args : List (List Char))
    (file : Option (List (List Char))) (h1 : 1 ≤ args.length) (h4 : args.length ≤ 4) :
    (main argv0 args file).2 =
      exitCodeOf (parseArguments argv0 args).1 (parseArguments argv0 args).2.1 file := by
  unfold main exitCodeOf
  simp only
  rw [if_neg (by simp only [List.length_cons]; omega)]
  cases stoi (parseArguments argv0 args).1 with
  | none => rfl
  | some n =>
    simp only
    rw [← isPortOpenRun_snd (parseArguments argv0 args).2.2 file (toUnsigned n)
      (parseArguments argv0 args).2.1]
    generalize isPortOpenRun (parseArguments argv0 args).2.2 file (toUnsigned n)
      (parseArguments argv0 args).2.1 = run
    obtain ⟨out, v⟩ := run
    cases v with
    | error e => rfl
    | ok b => cases b <;> rfl

/-- The exit code `exitCodeOf` is never `BAD_INPUT`. -/
theorem exitCodeOf_ne_BAD_INPUT (portText targetIp : List Char)
    (file : Option (List (List Char))) : exitCodeOf portText targetIp file ≠ .ok BAD_INPUT := by
  unfold exitCodeOf
  split
  · simp [NOT_FOUND, BAD_INPUT]
  · split
    · simp
    · simp [SUCCESS, BAD_INPUT]
    · simp [NOT_FOUND, BAD_INPUT]

/-- A digit is neither white space nor a sign. -/
theorem isdigit_facts (c : Char) (h : isdigit c = true) :
    isspace c = false ∧ c ≠ '-' ∧ c ≠ '+' := by
  unfold isdigit at h
  simp only [decide_eq_true_eq] at h
  refine ⟨?_, ?_, ?_⟩
  · unfold isspace
    simp
    omega
  · rintro rfl
    revert h
    decide
  · rintro rfl
    revert h
    decide

/-- The call `std::stoi` throws on every text that does not begin with a
decimal integer. -/
theorem stoi_eq_none_of_not_leadingInteger (p : List Char) (h : ¬ LeadingInteger p) :
    stoi p = none := by
  unfold stoi
  simp only
  split
  · rfl
  · rename_i hd
    exfalso
    apply h
    refine ⟨p.takeWhile isspace,
      if (extractSign (p.dropWhile isspace)).2 = p.dropWhile isspace then []
      else (p.dropWhile isspace).take 1,
      (extractSign (p.dropWhile isspace)).2.takeWhile isdigit,
      (extractSign (p.dropWhile isspace)).2.dropWhile isdigit, ?_, ?_, ?_, hd, ?_⟩
    · rw [List.takeWhile_append_dropWhile]
      conv_lhs => rw [← List.takeWhile_append_dropWhile isspace p]
      congr 1
      generalize p.dropWhile isspace = q
      cases q with
      | nil => simp [extractSign]
      | cons c rest =>
        unfold extractSign
        simp only
        split
        · rename_i hc
          subst hc
          have : rest ≠ '-' :: rest := fun e => by
            have := congrArg List.length e
            simp at this
          simp [this]
        · split
          · rename_i hc
            subst hc
            have : rest ≠ '+' :: rest := fun e => by
              have := congrArg List.length e
              simp at this
            simp [this]
          · simp
    · intro c hc
      exact List.mem_takeWhile_imp hc
    · generalize p.dropWhile isspace = q
      cases q with
      | nil => simp [extractSign]
      | cons c rest =>
        unfold extractSign
        simp only
        split
        · rename_i hc
          subst hc
          have : rest ≠ '-' :: rest := fun e => by
            have := congrArg List.length e
            simp at this
          simp [this]
        · split
          · rename_i hc
            subst hc
            have : rest ≠ '+' :: rest := fun e => by
              have := congrArg List.length e
              simp at this
            simp [this]
          · simp
    · intro c hc
      exact List.mem_takeWhile_imp hc

/-- A text that starts with a letter does not begin with a decimal integer. -/
theorem not_leadingInteger_of_head (c : Char) (rest : List Char)
    (hs : isspace c = false) (hd : isdigit c = false) (hm : c ≠ '-') (hp : c ≠ '+') :
    ¬ LeadingInteger (c :: rest) := by
  rintro ⟨ws, sign, digits, r, he, hws, hsign, hne, hdig⟩
  cases ws with
  | cons w ws' =>
    simp only [List.cons_append, List.cons.injEq] at he
    have := hws w (List.mem_cons_self _ _)
    rw [← he.1, hs] at this
    exact absurd this (by decide)
  | nil =>
    simp only [List.nil_append] at he
    rcases hsign with h | h | h
    · subst h
      cases digits with
      | nil => exact hne rfl
      | cons d ds =>
        simp only [List.nil_append, List.cons_append, List.cons.injEq] at he
        have := hdig d (List.mem_cons_self _ _)
        rw [← he.1, hd] at this
        exact absurd this (by decide)
    · subst h
      simp only [List.cons_append, List.cons.injEq] at he
      exact hp he.1
    · subst h
      simp only [List.cons_append, List.cons.injEq] at he
      exact hm he.1

/-- The usage text opens no table. -/
theorem openTable_not_mem_usage (fileName : List Char) :
    Event.openTable ∉ ((usageLines fileName).map (info (LogFlags.mk false false))).flatten := by
  simp [usageLines, info]

/-- The text `8080abc` is no integer literal. -/
theorem not_isIntegerLiteral_8080abc : ¬ IsIntegerLiteral "8080abc".toList := by
  rintro ⟨sign, digits, he, hsign, -, hdig⟩
  have hc : 'c' ∈ sign ++ digits := by rw [← he]; decide
  rcases List.mem_append.mp hc with h | h
  · rcases hsign with hs | hs | hs <;> subst hs <;> revert h <;> decide
  · have := hdig 'c' h
    revert this
    decide

/-- Removing the flags twice is removing them once. -/
theorem positionals_idem (args : List (List Char)) :
    positionals (positionals args) = positionals args := by
  unfold positionals
  rw [List.filter_filter]
  simp

/-- Removing the flags does not add arguments. -/
theorem positionals_length_le (args : List (List Char)) :
    (positionals args).length ≤ args.length := by
  unfold positionals
  exact List.length_filter_le _ _

/-! ## Lemmas on what is written -/

/-- The empty trace. -/
theorem debugOnly_nil (log : LogFlags) : DebugOnly log [] := by
  intro e he
  simp at he

/-- Two traces one after the other. -/
theorem debugOnly_append (log : LogFlags) (a b : List Event) :
    DebugOnly log (a ++ b) ↔ DebugOnly log a ∧ DebugOnly log b := by
  unfold DebugOnly
  constructor
  · intro h
    exact ⟨fun e he => h e (List.mem_append_left _ he), fun e he => h e (List.mem_append_right _ he)⟩
  · rintro ⟨ha, hb⟩ e he
    rcases List.mem_append.mp he with h | h
    · exact ha e h
    · exact hb e h

/-- The opening of the table is no line. -/
theorem debugOnly_cons_openTable (log : LogFlags) (a : List Event) :
    DebugOnly log (Event.openTable :: a) ↔ DebugOnly log a := by
  unfold DebugOnly
  constructor
  · intro h e he
    exact h e (List.mem_cons_of_mem _ he)
  · intro h e he
    rcases List.mem_cons.mp he with h1 | h1
    · exact Or.inl h1
    · exact h e h1

/-- What `debug` writes. -/
theorem debugOnly_debug (log : LogFlags) (msg : List Char) : DebugOnly log (debug log msg) := by
  unfold debug
  split
  · rename_i h
    intro e he
    simp only [List.mem_singleton] at he
    exact Or.inr ⟨h, msg, he⟩
  · exact debugOnly_nil log

/-- With `logQuietEnabled` set `info` writes nothing. -/
theorem info_quiet (log : LogFlags) (h : log.logQuietEnabled = true) (msg : List Char) :
    info log msg = [] := by
  simp [info, h]

/-- With `logQuietEnabled` set `error` writes nothing. -/
theorem error_quiet (log : LogFlags) (h : log.logQuietEnabled = true) (msg : List Char) :
    error log msg = [] := by
  simp [error, h]

/-- The loop body logs through `debug` only. -/
theorem checkLineRun_debugOnly (log : LogFlags) (P : Nat) (hex line : List Char) :
    DebugOnly log (checkLineRun log P hex line).1 := by
  unfold checkLineRun
  simp only
  by_cases hlen : (normalizeLine line defaultDelimiters).length ≤ FIELD_STATE
  · rw [if_pos hlen]; exact debugOnly_nil log
  · rw [if_neg hlen]
    generalize fieldAt (normalizeLine line defaultDelimiters) FIELD_SL = f0
    generalize fieldAt (normalizeLine line defaultDelimiters) FIELD_LOCAL_IP = f1
    generalize fieldAt (normalizeLine line defaultDelimiters) FIELD_LOCAL_PORT = f2
    generalize fieldAt (normalizeLine line defaultDelimiters) FIELD_STATE = f5
    cases f0 with
    | error e => exact debugOnly_nil log
    | ok sl =>
    cases f1 with
    | error e => exact debugOnly_nil log
    | ok la =>
    cases f2 with
    | error e => exact debugOnly_nil log
    | ok lp =>
    cases f5 with
    | error e => exact debugOnly_nil log
    | ok state =>
    simp only
    cases hexToInt state with
    | error e => simp only [debugOnly_append, debugOnly_debug, and_self]
    | ok st =>
    simp only
    by_cases h10 : st = STATE_LISTENING
    · rw [if_pos h10]
      cases hexToInt lp with
      | error e => simp only [debugOnly_append, debugOnly_debug, and_self]
      | ok port =>
      simp only
      by_cases hp : port = P
      · rw [if_pos hp]
        by_cases he : hex = []
        · rw [if_pos he]
          simp only [debugOnly_append, debugOnly_debug, and_self]
        · rw [if_neg he]
          by_cases ha : hex = la
          · rw [if_pos ha]
            simp only [debugOnly_append, debugOnly_debug, and_self]
          · rw [if_neg ha]
            simp only [debugOnly_append, debugOnly_debug, and_self]
      · rw [if_neg hp]
        simp only [debugOnly_append, debugOnly_debug, and_self]
    · rw [if_neg h10]
      simp only [debugOnly_append, debugOnly_debug, and_self]

/-- The scan logs through `debug` only. -/
theorem scanLinesRun_debugOnly (log : LogFlags) (P : Nat) (hex : List Char)
    (rows : List (List Char)) : DebugOnly log (scanLinesRun log P hex rows).1 := by
  induction rows with
  | nil => exact debugOnly_nil log
  | cons r rest ih =>
    have h := checkLineRun_debugOnly log P hex r
    simp only [scanLinesRun]
    generalize checkLineRun log P hex r = res at h
    obtain ⟨out, v⟩ := res
    cases v with
    | error e => exact h
    | ok b =>
      cases b with
      | true => exact h
      | false => exact (debugOnly_append log _ _).mpr ⟨h, ih⟩

/-- With `logQuietEnabled` set, `isPortOpen` logs through `debug` only. -/
theorem isPortOpenRun_debugOnly (log : LogFlags) (hq : log.logQuietEnabled = true)
    (file : Option (List (List Char))) (P : Nat) (A : List Char) :
    DebugOnly log (isPortOpenRun log file P A).1 := by
  cases file with
  | none =>
    simp only [isPortOpenRun, error_quiet log hq, debugOnly_cons_openTable]
    exact debugOnly_nil log
  | some lines =>
    unfold isPortOpenRun
    simp only
    split
    · simp only [error_quiet log hq, debugOnly_cons_openTable]
      exact debugOnly_nil log
    · simp only [debugOnly_cons_openTable, debugOnly_append]
      refine ⟨?_, scanLinesRun_debugOnly log P _ _⟩
      split
      · exact debugOnly_debug log _
      · exact debugOnly_nil log

/-- The echoed lines of the table. -/
theorem flatten_map_debug_debugOnly (log : LogFlags) (lines : List (List Char)) :
    DebugOnly log (lines.map (debug log)).flatten := by
  induction lines with
  | nil => exact debugOnly_nil log
  | cons l rest ih =>
    simp only [List.map_cons, List.flatten_cons, debugOnly_append]
    exact ⟨debugOnly_debug log l, ih⟩

/-- The echo of the table logs through `debug` only. -/
theorem dumpTable_debugOnly (log : LogFlags) (file : Option (List (List Char))) :
    DebugOnly log (dumpTable log file) := by
  unfold dumpTable
  split
  · cases file with
    | none =>
      simp only [debugOnly_cons_openTable]
      exact debugOnly_debug log _
    | some lines =>
      simp only [debugOnly_cons_openTable, debugOnly_append]
      exact ⟨⟨debugOnly_debug log _, flatten_map_debug_debugOnly log lines⟩,
        debugOnly_debug log _⟩
  · exact debugOnly_nil log

/-- With 1 to 4 arguments, `--quiet` among them, `main` logs through `debug` only. -/
theorem main_debugOnly (argv0 : List Char) (args : List (List Char))
    (file : Option (List (List Char))) (h1 : 1 ≤ args.length) (h4 : args.length ≤ 4)
    (hq : quietFlag ∈ args) :
    DebugOnly (parseArguments argv0 args).2.2 (main argv0 args file).1 := by
  have hflags := (parseArguments_spec argv0 args).1
  have hquiet : (parseArguments argv0 args).2.2.logQuietEnabled = true := by
    rw [hflags]; simpa using hq
  unfold main
  simp only
  rw [if_neg (by simp only [List.length_cons]; omega)]
  generalize parseArguments argv0 args = parsed at hquiet ⊢
  have hd := dumpTable_debugOnly parsed.2.2 file
  cases stoi parsed.1 with
  | none =>
    simp only [error_quiet _ hquiet, List.append_nil]
    exact hd
  | some n =>
    simp only
    have hr := isPortOpenRun_debugOnly parsed.2.2 hquiet file (toUnsigned n) parsed.2.1
    generalize isPortOpenRun parsed.2.2 file (toUnsigned n) parsed.2.1 = run at hr ⊢
    obtain ⟨out, v⟩ := run
    cases v with
    | error e =>
      simp only [debugOnly_append]
      exact ⟨⟨hd, debugOnly_debug _ _⟩, hr⟩
    | ok b =>
      cases b with
      | true =>
        simp only [info_quiet _ hquiet, List.append_nil, debugOnly_append]
        exact ⟨⟨hd, debugOnly_debug _ _⟩, hr⟩
      | false =>
        simp only [info_quiet _ hquiet, List.append_nil, debugOnly_append]
        exact ⟨⟨hd, debugOnly_debug _ _⟩, hr⟩

/-- The lines written in a trace that logs through `debug` only. -/
theorem written_of_debugOnly (log : LogFlags) (events : List Event)
    (h : DebugOnly log events) :
    ∀ w ∈ written events, log.logDebugEnabled = true ∧ w.1 = OutStream.stdout ∧
      "[DEBUG] ".toList <+: w.2 := by
  induction events with
  | nil => intro w hw; simp [written] at hw
  | cons e rest ih =>
    have hrest : DebugOnly log rest := fun x hx => h x (List.mem_cons_of_mem _ hx)
    cases e with
    | openTable => simpa [written] using ih hrest
    | write stream text =>
      intro w hw
      simp only [written, List.mem_cons] at hw
      rcases hw with hw | hw
      · rcases h _ (List.mem_cons_self _ _) with h1 | ⟨hdbg, msg, hmsg⟩
        · simp at h1
        · simp only [Event.write.injEq] at hmsg
          rw [hw]
          exact ⟨hdbg, hmsg.1, by rw [hmsg.2]; exact List.prefix_append _ _⟩
      · exact ih hrest w hw

/-! ## Undecodable tokens and the encoded address -/

/-- Claim C11 as amended: `hexToInt` reports no decode failure. For every
table, target port `P` and address, the result of `isPortOpen` is the same with
every row removed whose state token is undecodable, and every row removed whose
local-port token is undecodable and yields a value other than `P`: it holds no
number and `P` is not 0, or its number does not fit 32 bits and `P` is not
`UINT_MAX`. For an undecodable token `hexToInt` yields 0 when the token holds no
number (no hexadecimal digit follows the leading white space, optional sign
and optional prefix `0x`), and `UINT_MAX` when its number does not fit 32 bits.
Rows that decode a token made of white space only are left aside: the value
read for such a token is indeterminate. -/
theorem c11_undecodable_rows_skipped (header : List Char) (rows : List (List Char))
    (P : Nat) (targetIp : List Char) :
    isPortOpen (some (header :: rows)) P targetIp =
      isPortOpen (some (header :: rows.filter
        (fun r => !decide (UndecodableState r ∨ UndecodablePortFor P r)))) P targetIp ∧
    ∀ t : List Char,
      (NoNumber t → hexToInt t = .ok 0) ∧ (TooLarge t → hexToInt t = .ok UINT_MAX) := by
  refine ⟨?_, fun t => ⟨hexToInt_noNumber t, hexToInt_tooLarge t⟩⟩
  unfold isPortOpen
  simp only [List.drop_succ_cons, List.drop_zero]
  split
  · rfl
  · rw [scanLines_filter P _ (fun r => !decide (UndecodableState r ∨ UndecodablePortFor P r))]
    intro l hl
    have hl' : UndecodableState l ∨ UndecodablePortFor P l := by
      by_contra hn
      simp [hn] at hl
    rcases hl' with h | h
    · exact checkLine_undecodableState P _ l h
    · exact checkLine_undecodablePortFor P _ l h

/-- Claim C11 as stated fails at target port 0: in the row
`1: 0100007F:ZZ 00000000:0000 0A` the local-port token `ZZ` holds no
hexadecimal digit, `isPortOpen 0` returns true on the header followed by that
row, and false once the row is removed. It fails at target port `UINT_MAX` in
the same way on the row `2: 0100007F:FFFFFFFFF 00000000:0000 0A`, whose
local-port token does not fit 32 bits. -/
theorem c11_counterexample :
    (NoHexDigit (field badPortRow FIELD_LOCAL_PORT) ∧
      isPortOpen (some [sampleHeader, badPortRow]) 0 [] = .ok true ∧
      isPortOpen (some [sampleHeader]) 0 [] = .ok false) ∧
    (TooLarge (field hugePortRow FIELD_LOCAL_PORT) ∧
      isPortOpen (some [sampleHeader, hugePortRow]) UINT_MAX [] = .ok true ∧
      isPortOpen (some [sampleHeader]) UINT_MAX [] = .ok false) :=
  ⟨⟨by decide, by rfl, by rfl⟩, by decide, by rfl, by rfl⟩

/-- Eight rows with the undecodable tokens `ZZ`, `G1`, `Z0A`, `tx_queue`, `0x`,
`-`, `FFFFFFFFF` and `10000000A` in front of a listening row for port 8080:
for target port 8080 the filter removes all eight, and the result is
unchanged. For target port 0 the filter keeps the row with the local-port
token `ZZ`, and for target port `UINT_MAX` the row with `FFFFFFFFF`. The token
`tx_queue` holds no number and is read as 0; `FFFFFFFFF` does not fit 32 bits
and is read as `UINT_MAX`. -/
theorem c11_witness :
    (junkRows ++ [sampleRow]).filter
      (fun r => !decide (UndecodableState r ∨ UndecodablePortFor 8080 r)) = [sampleRow] ∧
    [badPortRow, hugePortRow].filter
      (fun r => !decide (UndecodableState r ∨ UndecodablePortFor 0 r)) = [badPortRow] ∧
    [badPortRow, hugePortRow].filter
      (fun r => !decide (UndecodableState r ∨ UndecodablePortFor UINT_MAX r)) = [hugePortRow] ∧
    isPortOpen (some (sampleHeader :: (junkRows ++ [sampleRow]))) 8080 "127.0.0.1".toList =
      isPortOpen (some (sampleHeader :: (junkRows ++ [sampleRow]).filter
        (fun r => !decide (UndecodableState r ∨ UndecodablePortFor 8080 r)))) 8080
        "127.0.0.1".toList ∧
    (NoNumber "tx_queue".toList ∧ hexToInt "tx_queue".toList = .ok 0) ∧
    (TooLarge "FFFFFFFFF".toList ∧ hexToInt "FFFFFFFFF".toList = .ok UINT_MAX) :=
  ⟨by decide, by decide, by decide,
    (c11_undecodable_rows_skipped sampleHeader (junkRows ++ [sampleRow]) 8080
      "127.0.0.1".toList).1,
    ⟨by decide, ((c11_undecodable_rows_skipped sampleHeader [] 8080 []).2
      "tx_queue".toList).1 (by decide)⟩,
    ⟨by decide, ((c11_undecodable_rows_skipped sampleHeader [] 8080 []).2
      "FFFFFFFFF".toList).2 (by decide)⟩⟩

/-- Claim C12: for every dotted quad `a.b.c.d` with `a`, `b`, `c`, `d` in
0..255, `ipToHex` returns the two-digit uppercase hexadecimal numerals of `d`,
`c`, `b`, `a` in this order: a string of exactly 8 uppercase hexadecimal
digits, which denotes the 32-bit value `a + 2^8 b + 2^16 c + 2^24 d` that the
address bytes form in little-endian order, and which is not empty. -/
theorem c12_ipToHex_encoding (a b c d : Nat) (ha : a ≤ 255) (hb : b ≤ 255) (hc : c ≤ 255)
    (hd : d ≤ 255) :
    ipToHex (dottedQuad a b c d) = hexByte d ++ hexByte c ++ hexByte b ++ hexByte a ∧
    (ipToHex (dottedQuad a b c d)).length = 8 ∧
    (∀ ch ∈ ipToHex (dottedQuad a b c d), ch ∈ upperHexDigits) ∧
    hexValue (ipToHex (dottedQuad a b c d)) = a + 256 * b + 65536 * c + 16777216 * d ∧
    ipToHex (dottedQuad a b c d) ≠ [] := by
  have e : ipToHex (dottedQuad a b c d) = hexByte d ++ hexByte c ++ hexByte b ++ hexByte a := by
    rw [ipToHex_dottedQuad a b c d ha hb hc hd, formatHex8_s_addr a b c d ha hb hc hd]
  refine ⟨e, ?_, ?_, ?_, ?_⟩
  · rw [e]; simp [hexByte]
  · rw [e]
    intro ch hch
    simp only [List.mem_append] at hch
    rcases hch with ((h | h) | h) | h
    · exact mem_hexByte d hd ch h
    · exact mem_hexByte c hc ch h
    · exact mem_hexByte b hb ch h
    · exact mem_hexByte a ha ch h
  · rw [e]
    unfold hexValue
    rw [List.append_assoc, List.append_assoc, hexValue_hexByte_append d hd,
      hexValue_hexByte_append c hc]
    have := hexValue_hexByte_append a ha [] (256 * (256 * (256 * 0 + d) + c) + b)
    rw [hexValue_hexByte_append b hb]
    rw [List.append_nil] at this
    rw [this]
    simp only [List.foldl_nil]
    omega
  · rw [e]; simp [hexByte]

/-- The literal `127.0.0.1` is encoded as `0100007F`. -/
theorem c12_witness :
    (127 ≤ 255 ∧ 0 ≤ 255 ∧ 1 ≤ 255) ∧
    dottedQuad 127 0 0 1 = "127.0.0.1".toList ∧
    ipToHex "127.0.0.1".toList = "0100007F".toList ∧
    (ipToHex (dottedQuad 127 0 0 1) = hexByte 1 ++ hexByte 0 ++ hexByte 0 ++ hexByte 127 ∧
      (ipToHex (dottedQuad 127 0 0 1)).length = 8 ∧
      (∀ ch ∈ ipToHex (dottedQuad 127 0 0 1), ch ∈ upperHexDigits) ∧
      hexValue (ipToHex (dottedQuad 127 0 0 1)) = 127 + 256 * 0 + 65536 * 0 + 16777216 * 1 ∧
      ipToHex (dottedQuad 127 0 0 1) ≠ []) :=
  ⟨⟨by decide, by decide, by decide⟩, rfl, rfl,
    c12_ipToHex_encoding 127 0 0 1 (by decide) (by decide) (by decide) (by decide)⟩

/-! ## The exit code and the output of `main` -/

/-- Claim C13: for every argument list of 1 to 4 arguments, the count `main`
accepts, whose first argument that is no flag is parsed by `std::stoi` as the
integer `n`, `main` returns 0 exactly when `isPortOpen` returns true for the
port `n` taken as `unsigned int` and the address given (the next argument that
is no flag, or the empty string), returns 1 exactly when `isPortOpen` returns
false, and does not return 2. -/
theorem c13_exit_code_follows_isPortOpen (argv0 : List Char) (args : List (List Char))
    (file : Option (List (List Char))) (p : List Char) (rest : List (List Char)) (n : Int)
    (h1 : 1 ≤ args.length) (h4 : args.length ≤ 4) (hpos : positionals args = p :: rest)
    (hport : stoi p = some n) :
    ((main argv0 args file).2 = .ok SUCCESS ↔
      isPortOpen file (toUnsigned n) (rest.headD []) = .ok true) ∧
    ((main argv0 args file).2 = .ok NOT_FOUND ↔
      isPortOpen file (toUnsigned n) (rest.headD []) = .ok false) ∧
    (main argv0 args file).2 ≠ .ok BAD_INPUT := by
  obtain ⟨hp, ha⟩ := (parseArguments_spec argv0 args).2 p rest hpos
  have hm := main_snd argv0 args file h1 h4
  refine ⟨?_, ?_, ?_⟩
  · rw [hm, hp, ha]
    unfold exitCodeOf
    rw [hport]
    simp only
    cases isPortOpen file (toUnsigned n) (rest.headD []) with
    | error e => simp
    | ok b => cases b <;> simp [SUCCESS, NOT_FOUND]
  · rw [hm, hp, ha]
    unfold exitCodeOf
    rw [hport]
    simp only
    cases isPortOpen file (toUnsigned n) (rest.headD []) with
    | error e => simp
    | ok b => cases b <;> simp [SUCCESS, NOT_FOUND]
  · rw [hm]
    exact exitCodeOf_ne_BAD_INPUT _ _ _

/-- The arguments `8080 127.0.0.1` on the table of the scenarios: the
hypotheses of C13 hold and `main` returns 0; for the argument `8081` it
returns 1. -/
theorem c13_witness :
    (1 ≤ ["8080".toList, "127.0.0.1".toList].length ∧
      ["8080".toList, "127.0.0.1".toList].length ≤ 4 ∧
      positionals ["8080".toList, "127.0.0.1".toList] = "8080".toList :: ["127.0.0.1".toList] ∧
      stoi "8080".toList = some 8080) ∧
    (((main "healthcheck".toList ["8080".toList, "127.0.0.1".toList] sampleTable).2 = .ok SUCCESS ↔
        isPortOpen sampleTable (toUnsigned 8080) (["127.0.0.1".toList].headD []) = .ok true) ∧
      ((main "healthcheck".toList ["8080".toList, "127.0.0.1".toList] sampleTable).2
          = .ok NOT_FOUND ↔
        isPortOpen sampleTable (toUnsigned 8080) (["127.0.0.1".toList].headD []) = .ok false) ∧
      (main "healthcheck".toList ["8080".toList, "127.0.0.1".toList] sampleTable).2
        ≠ .ok BAD_INPUT) ∧
    (main "healthcheck".toList ["8080".toList, "127.0.0.1".toList] sampleTable).2 = .ok SUCCESS ∧
    (main "healthcheck".toList ["8081".toList] sampleTable).2 = .ok NOT_FOUND :=
  ⟨⟨by decide, by decide, by decide, by decide⟩,
    c13_exit_code_follows_isPortOpen "healthcheck".toList ["8080".toList, "127.0.0.1".toList]
      sampleTable "8080".toList ["127.0.0.1".toList] 8080 (by decide) (by decide) (by decide)
      (by decide),
    rfl, rfl⟩

/-- Claim C14 as amended: `main` returns 2 whenever the number of arguments
as given, flags included, is 0 or more than 4; whenever it returns 2 the table
is not opened; it does not return 2 for a list of at most 4 arguments of which
1 or 2 are no flags; and the empty argument list returns 2. -/
theorem c14_usage_exit_code (argv0 : List Char) (args : List (List Char))
    (file : Option (List (List Char))) :
    ((args.length = 0 ∨ 4 < args.length) → (main argv0 args file).2 = .ok BAD_INPUT) ∧
    ((main argv0 args file).2 = .ok BAD_INPUT → Event.openTable ∉ (main argv0 args file).1) ∧
    (args.length ≤ 4 → ((positionals args).length = 1 ∨ (positionals args).length = 2) →
      (main argv0 args file).2 ≠ .ok BAD_INPUT) ∧
    (main argv0 [] file).2 = .ok BAD_INPUT := by
  have hiff : (main argv0 args file).2 = .ok BAD_INPUT ↔ (args.length = 0 ∨ 4 < args.length) := by
    constructor
    · intro h
      by_contra hc
      have h1 : 1 ≤ args.length := by omega
      have h4 : args.length ≤ 4 := by omega
      rw [main_snd argv0 args file h1 h4] at h
      exact exitCodeOf_ne_BAD_INPUT _ _ _ h
    · intro h
      rw [main_usage argv0 args file h]
  refine ⟨hiff.mpr, ?_, ?_, ?_⟩
  · intro h
    rw [main_usage argv0 args file (hiff.mp h)]
    exact openTable_not_mem_usage _
  · intro h4 hpos h
    have hlen := positionals_length_le args
    rcases hiff.mp h with h0 | h5
    · omega
    · omega
  · rw [main_usage argv0 [] file (Or.inl rfl)]

/-- Claim C14 as stated fails in both directions: the argument list `--quiet`
leaves no argument once the flags are removed, and `main` returns 1; the list
`8080 --debug --quiet --debug --quiet` leaves the single argument `8080`, and
`main` returns 2. -/
theorem c14_counterexample :
    (positionals [quietFlag] = [] ∧
      (main "healthcheck".toList [quietFlag] sampleTable).2 = .ok NOT_FOUND) ∧
    (positionals ["8080".toList, debugFlag, quietFlag, debugFlag, quietFlag] = ["8080".toList] ∧
      (main "healthcheck".toList ["8080".toList, debugFlag, quietFlag, debugFlag, quietFlag]
        sampleTable).2 = .ok BAD_INPUT) :=
  ⟨⟨by decide, rfl⟩, by decide, rfl⟩

/-- The empty argument list returns 2 and opens no table; the arguments
`8080 --quiet` do not return 2. -/
theorem c14_witness :
    ((([] : List (List Char)).length = 0 ∨ 4 < ([] : List (List Char)).length) ∧
      (main "healthcheck".toList [] sampleTable).2 = .ok BAD_INPUT) ∧
    Event.openTable ∉ (main "healthcheck".toList [] sampleTable).1 ∧
    ((["8080".toList, quietFlag].length ≤ 4 ∧
        ((positionals ["8080".toList, quietFlag]).length = 1 ∨
          (positionals ["8080".toList, quietFlag]).length = 2)) ∧
      (main "healthcheck".toList ["8080".toList, quietFlag] sampleTable).2 ≠ .ok BAD_INPUT) :=
  ⟨⟨Or.inl rfl, (c14_usage_exit_code "healthcheck".toList [] sampleTable).1 (Or.inl rfl)⟩,
    (c14_usage_exit_code "healthcheck".toList [] sampleTable).2.1
      ((c14_usage_exit_code "healthcheck".toList [] sampleTable).1 (Or.inl rfl)),
    ⟨by decide, by decide⟩,
    (c14_usage_exit_code "healthcheck".toList ["8080".toList, quietFlag] sampleTable).2.2.1
      (by decide) (by decide)⟩

/-- Claim C15 as amended: for every argument list of 1 to 4 arguments whose
first argument that is no flag does not begin with a decimal integer (white
space, an optional sign, then at least one digit), `main` returns 1, not 0 and
not 2, whatever the table holds. -/
theorem c15_bad_port_exit_code (argv0 : List Char) (args : List (List Char))
    (file : Option (List (List Char))) (p : List Char) (rest : List (List Char))
    (h1 : 1 ≤ args.length) (h4 : args.length ≤ 4) (hpos : positionals args = p :: rest)
    (hbad : ¬ LeadingInteger p) :
    (main argv0 args file).2 = .ok NOT_FOUND ∧ (main argv0 args file).2 ≠ .ok SUCCESS ∧
    (main argv0 args file).2 ≠ .ok BAD_INPUT := by
  obtain ⟨hp, -⟩ := (parseArguments_spec argv0 args).2 p rest hpos
  have hm := main_snd argv0 args file h1 h4
  have : (main argv0 args file).2 = .ok NOT_FOUND := by
    rw [hm, hp]
    unfold exitCodeOf
    rw [stoi_eq_none_of_not_leadingInteger p hbad]
  rw [this]
  exact ⟨rfl, by simp [NOT_FOUND, SUCCESS], by simp [NOT_FOUND, BAD_INPUT]⟩

/-- Claim C15 as stated fails at the port argument `8080abc`: it is no
integer literal, `std::stoi` reads 8080 and ignores the rest, and on a table
with a listening row for port 8080 `main` returns 0. -/
theorem c15_counterexample :
    ¬ IsIntegerLiteral "8080abc".toList ∧
    positionals ["8080abc".toList] = ["8080abc".toList] ∧
    (main "healthcheck".toList ["8080abc".toList] sampleTable).2 = .ok SUCCESS :=
  ⟨not_isIntegerLiteral_8080abc, by decide, rfl⟩

/-- The argument `abc` does not begin with a decimal integer, and `main`
returns 1. -/
theorem c15_witness :
    (1 ≤ ["abc".toList].length ∧ ["abc".toList].length ≤ 4 ∧
      positionals ["abc".toList] = "abc".toList :: [] ∧ ¬ LeadingInteger "abc".toList) ∧
    ((main "healthcheck".toList ["abc".toList] sampleTable).2 = .ok NOT_FOUND ∧
      (main "healthcheck".toList ["abc".toList] sampleTable).2 ≠ .ok SUCCESS ∧
      (main "healthcheck".toList ["abc".toList] sampleTable).2 ≠ .ok BAD_INPUT) :=
  ⟨⟨by decide, by decide, by decide,
      not_leadingInteger_of_head 'a' "bc".toList (by decide) (by decide) (by decide) (by decide)⟩,
    c15_bad_port_exit_code "healthcheck".toList ["abc".toList] sampleTable "abc".toList []
      (by decide) (by decide) (by decide)
      (not_leadingInteger_of_head 'a' "bc".toList (by decide) (by decide) (by decide)
        (by decide))⟩

/-- Claim C16 as amended: for every argument list of at most 4 arguments
that holds `--quiet`, every line `main` writes is a `[DEBUG]` line on standard
output, written only when `--debug` is among the arguments too; without
`--debug` nothing is written. -/
theorem c16_quiet_output (argv0 : List Char) (args : List (List Char))
    (file : Option (List (List Char))) (h4 : args.length ≤ 4) (hq : quietFlag ∈ args) :
    (∀ w ∈ written (main argv0 args file).1,
      debugFlag ∈ args ∧ w.1 = OutStream.stdout ∧ "[DEBUG] ".toList <+: w.2) ∧
    (debugFlag ∉ args → written (main argv0 args file).1 = []) := by
  have h1 : 1 ≤ args.length := List.length_pos_of_mem hq
  have hflags := (parseArguments_spec argv0 args).1
  have key := written_of_debugOnly _ _ (main_debugOnly argv0 args file h1 h4 hq)
  have hall : ∀ w ∈ written (main argv0 args file).1,
      debugFlag ∈ args ∧ w.1 = OutStream.stdout ∧ "[DEBUG] ".toList <+: w.2 := by
    intro w hw
    obtain ⟨hd, hs, hp⟩ := key w hw
    rw [hflags] at hd
    exact ⟨by simpa using hd, hs, hp⟩
  refine ⟨hall, fun hnd => ?_⟩
  apply List.eq_nil_iff_forall_not_mem.mpr
  intro w hw
  exact hnd (hall w hw).1

/-- Claim C16 as stated fails: the arguments `8080 --debug --quiet` hold
`--quiet` and write `[DEBUG]` lines to standard output; the five arguments
`8080 127.0.0.1 a b --quiet` hold `--quiet` and write the usage text. -/
theorem c16_counterexample :
    (quietFlag ∈ ["8080".toList, "--debug".toList, "--quiet".toList] ∧
      (written (main "healthcheck".toList
          ["8080".toList, "--debug".toList, "--quiet".toList] sampleTable).1).head?
        = some (OutStream.stdout, "[DEBUG] === Contents of /proc/net/tcp ===".toList)) ∧
    (quietFlag ∈ ["8080".toList, "127.0.0.1".toList, "a".toList, "b".toList, "--quiet".toList] ∧
      (written (main "healthcheck".toList
          ["8080".toList, "127.0.0.1".toList, "a".toList, "b".toList, "--quiet".toList]
          sampleTable).1).head?
        = some (OutStream.stdout,
            "Usage: healthcheck <port_number> [<ip_address>] [--debug] [--quiet]".toList)) :=
  ⟨⟨by decide, by rfl⟩, by decide, by rfl⟩

/-- The arguments `--quiet 8080 ::1` write nothing; without `--quiet` the
same query writes an error line and a result line. -/
theorem c16_witness :
    (["--quiet".toList, "8080".toList, "::1".toList].length ≤ 4 ∧
      quietFlag ∈ ["--quiet".toList, "8080".toList, "::1".toList]) ∧
    ((∀ w ∈ written (main "healthcheck".toList
          ["--quiet".toList, "8080".toList, "::1".toList] sampleTable).1,
        debugFlag ∈ ["--quiet".toList, "8080".toList, "::1".toList] ∧
          w.1 = OutStream.stdout ∧ "[DEBUG] ".toList <+: w.2) ∧
      (debugFlag ∉ ["--quiet".toList, "8080".toList, "::1".toList] →
        written (main "healthcheck".toList
          ["--quiet".toList, "8080".toList, "::1".toList] sampleTable).1 = [])) ∧
    written (main "healthcheck".toList
      ["--quiet".toList, "8080".toList, "::1".toList] sampleTable).1 = [] ∧
    written (main "healthcheck".toList ["8080".toList, "::1".toList] sampleTable).1 =
      [(OutStream.stderr, "[ERROR] Invalid IP address format".toList),
        (OutStream.stdout, "Port 8080 is not open or not listening on ::1".toList)] :=
  ⟨⟨by decide, by decide⟩,
    c16_quiet_output "healthcheck".toList ["--quiet".toList, "8080".toList, "::1".toList]
      sampleTable (by decide) (by decide),
    by rfl, by rfl⟩

/-- Claim C17: for every argument list of at most 4 arguments in which some
argument is no flag, the text `main` parses the port from is the first argument
that is no flag and the address it uses is the second one (or empty), just as
for the same list with the flags `--debug` and `--quiet` removed; and both
lists give the same exit code. -/
theorem c17_flags_removable (argv0 : List Char) (args : List (List Char))
    (file : Option (List (List Char))) (p : List Char) (rest : List (List Char))
    (h4 : args.length ≤ 4) (hpos : positionals args = p :: rest) :
    ((parseArguments argv0 args).1 = p ∧ (parseArguments argv0 args).2.1 = rest.headD []) ∧
    ((parseArguments argv0 (positionals args)).1 = p ∧
      (parseArguments argv0 (positionals args)).2.1 = rest.headD []) ∧
    (main argv0 args file).2 = (main argv0 (positionals args) file).2 := by
  have hlen := positionals_length_le args
  have hl1 : 1 ≤ (positionals args).length := by rw [hpos]; simp
  have ha := (parseArguments_spec argv0 args).2 p rest hpos
  have hb := (parseArguments_spec argv0 (positionals args)).2 p rest
    (by rw [positionals_idem, hpos])
  refine ⟨ha, hb, ?_⟩
  rw [main_snd argv0 args file (by omega) h4,
    main_snd argv0 (positionals args) file hl1 (by omega), ha.1, ha.2, hb.1, hb.2]

/-- The arguments `--quiet 8080 --debug 127.0.0.1` give the port text `8080`,
the address `127.0.0.1` and the exit code of `8080 127.0.0.1`. -/
theorem c17_witness :
    (["--quiet".toList, "8080".toList, "--debug".toList, "127.0.0.1".toList].length ≤ 4 ∧
      positionals ["--quiet".toList, "8080".toList, "--debug".toList, "127.0.0.1".toList]
        = "8080".toList :: ["127.0.0.1".toList]) ∧
    (((parseArguments "healthcheck".toList
          ["--quiet".toList, "8080".toList, "--debug".toList, "127.0.0.1".toList]).1
        = "8080".toList ∧
      (parseArguments "healthcheck".toList
          ["--quiet".toList, "8080".toList, "--debug".toList, "127.0.0.1".toList]).2.1
        = ["127.0.0.1".toList].headD []) ∧
    ((parseArguments "healthcheck".toList (positionals
          ["--quiet".toList, "8080".toList, "--debug".toList, "127.0.0.1".toList])).1
        = "8080".toList ∧
      (parseArguments "healthcheck".toList (positionals
          ["--quiet".toList, "8080".toList, "--debug".toList, "127.0.0.1".toList])).2.1
        = ["127.0.0.1".toList].headD []) ∧
    (main "healthcheck".toList
        ["--quiet".toList, "8080".toList, "--debug".toList, "127.0.0.1".toList] sampleTable).2
      = (main "healthcheck".toList (positionals
        ["--quiet".toList, "8080".toList, "--debug".toList, "127.0.0.1".toList]) sampleTable).2) :=
  ⟨⟨by decide, by decide⟩,
    c17_flags_removable "healthcheck".toList
      ["--quiet".toList, "8080".toList, "--debug".toList, "127.0.0.1".toList] sampleTable
      "8080".toList ["127.0.0.1".toList] (by decide) (by decide)⟩

/-- Claim C18: when the table cannot be opened, `isPortOpen` returns false for
every port and every address, and `main` returns 1 for every argument list of
1 to 4 arguments. -/
theorem c18_unopenable_table (argv0 : List Char) (args : List (List Char)) (P : Nat)
    (A : List Char) (h1 : 1 ≤ args.length) (h4 : args.length ≤ 4) :
    isPortOpen none P A = .ok false ∧ (main argv0 args none).2 = .ok NOT_FOUND := by
  refine ⟨rfl, ?_⟩
  rw [main_snd argv0 args none h1 h4]
  unfold exitCodeOf
  split
  · rfl
  · rfl

/-- The arguments `8080 127.0.0.1` without a table to open: `main` returns 1. -/
theorem c18_witness :
    (1 ≤ ["8080".toList, "127.0.0.1".toList].length ∧
      ["8080".toList, "127.0.0.1".toList].length ≤ 4) ∧
    (isPortOpen none 8080 "127.0.0.1".toList = .ok false ∧
      (main "healthcheck".toList ["8080".toList, "127.0.0.1".toList] none).2 = .ok NOT_FOUND) :=
  ⟨⟨by decide, by decide⟩,
    c18_unopenable_table "healthcheck".toList ["8080".toList, "127.0.0.1".toList] 8080
      "127.0.0.1".toList (by decide) (by decide)⟩

/-! ## Decoding and the address filter -/

/-- Claim C19: for every string of 1 to 8 hexadecimal digits, in any mix of
upper and lower case and with any leading zeros, `hexToInt` returns the number
the string denotes in base 16. -/
theorem c19_hexToInt_exact (s : List Char) (hs : IsHexString s) (hlen : s.length ≤ 8) :
    hexToInt s = .ok (hexValue s) := by
  rw [hexToInt_hexString s hs, if_pos (hexValue_le_UINT_MAX s hs.2 hlen)]

/-- The strings `1F90` and `1f90` are decoded as 8080, and `0A`, `0a` and `A`
as 10. -/
theorem c19_witness :
    (IsHexString "1f90".toList ∧ "1f90".toList.length ≤ 8) ∧
    hexToInt "1f90".toList = .ok (hexValue "1f90".toList) ∧
    hexValue "1f90".toList = 8080 ∧ hexValue "1F90".toList = 8080 ∧
    hexValue "0A".toList = 10 ∧ hexValue "0a".toList = 10 ∧ hexValue "A".toList = 10 ∧
    hexValue "0000000A".toList = 10 ∧ hexValue "FFFFFFFF".toList = 4294967295 ∧
    hexToInt "1F90".toList = .ok 8080 ∧ hexToInt "1f90".toList = .ok 8080 ∧
    hexToInt "0A".toList = .ok 10 ∧ hexToInt "0a".toList = .ok 10 ∧
    hexToInt "A".toList = .ok 10 :=
  ⟨⟨by decide, by decide⟩, c19_hexToInt_exact "1f90".toList (by decide) (by decide),
    by decide, by decide, by decide, by decide, by decide, by decide, by decide,
    rfl, rfl, rfl, rfl, rfl⟩

/-- Claim C20: for every table, openable or not, every port and every
address, when `isPortOpen` with the address returns true, `isPortOpen` without
an address returns true as well. -/
theorem c20_address_filter_narrows (file : Option (List (List Char))) (P : Nat)
    (A : List Char) (h : isPortOpen file P A = .ok true) :
    isPortOpen file P [] = .ok true := by
  cases file with
  | none => simp [isPortOpen] at h
  | some lines =>
    unfold isPortOpen at h ⊢
    simp only at h ⊢
    split at h
    · simp at h
    · simp only [ne_eq, not_true_eq_false, false_and, if_false]
      exact scanLines_no_filter P _ _ h

/-- On the table of the scenarios port 8080 is found with the address
`127.0.0.1`, and so without an address. -/
theorem c20_witness :
    isPortOpen (some [sampleHeader, sampleRow]) 8080 "127.0.0.1".toList = .ok true ∧
    isPortOpen (some [sampleHeader, sampleRow]) 8080 [] = .ok true :=
  ⟨rfl, c20_address_filter_narrows (some [sampleHeader, sampleRow]) 8080 "127.0.0.1".toList rfl⟩

end Healthcheck
